import Mathlib

/-!
# Verification of `graph_search.py` (grid-map graph-search package)

Shallow embedding of the repository's two source files
(`src/graph_search.py`, `src/run_graph_search.py`) and proofs about it.

Conventions of the embedding:
* Python exceptions are modelled with `Except PyErr`; a pure function that can
  only raise `IndexError` through an out-of-range access returns `Option`/`Except`.
* Python `int`/`float` costs are modelled as `Int` (all costs appearing in the
  claims are integers).
* States are `(row, col)` pairs of naturals, exactly as the code's tuples; the
  code's `_Y = 0` is the row component and `_X = 1` the column component.
* `numpy` boolean occupancy grids are modelled as `List (List Bool)`
  (row-major, `True` = occupied).
* CPython's `heapq` module (used by `PriorityQ`) is embedded function by
  function from its reference implementation (`heappush`, `heappop`,
  `heapify`, `_siftdown`, `_siftup`).  Heap entries are `(cost, node)` tuples;
  Python orders two such tuples by comparing the costs first and, when the
  costs are equal, falls back to `SearchNode < SearchNode`, which raises
  `TypeError` because `SearchNode` defines no ordering.  The comparison is
  therefore modelled as `Option Bool` (`none` = `TypeError`).  (Two distinct
  heap slots never hold the same node object, so the Python identity-equality
  shortcut inside tuple comparison never fires on reachable comparisons.)
-/

set_option linter.unusedVariables false

/-- The Python exceptions (and one spec-named error class) relevant to the
sources.  `indexError`, `valueError`, `typeError`, `keyError` and
`recursionError` are the builtin exceptions the code can actually raise.
`mapFormatError` and `emptyFrontierError` are modelled from the spec: the spec
names error classes `MapFormatError` and `EmptyFrontierError`, but the source
never defines or raises either; they are included only so that statements
about them can be written down (and refuted). -/
inductive PyErr where
  | indexError
  | valueError
  | typeError
  | keyError
  | recursionError
  | mapFormatError
  | emptyFrontierError
deriving DecidableEq, Repr

/-! ## `GridMap` (environment model) -/

/-- The class variables of `GridMap` after `read_map` ran (`rows`, `cols`,
`goal`, `init_pos`, `occupancy_grid`).  `goal` and `init_pos` start as
Python `None` (here `none`) and are only assigned when a marker is seen. -/
structure GridMap where
  rows : Nat
  cols : Nat
  goal : Option (Nat × Nat)
  init_pos : Option (Nat × Nat)
  occupancy_grid : List (List Bool)
deriving DecidableEq, Repr

/-- Python `str.rstrip()` on a line (drop trailing whitespace). -/
def pyRstrip (l : List Char) : List Char :=
  (l.reverse.dropWhile Char.isWhitespace).reverse

/-- `l.rstrip().lower()` as applied to each raw line in `read_map`. -/
def processLine (l : List Char) : List Char :=
  (pyRstrip l).map Char.toLower

/-- Python `max(list)`: raises `ValueError` on an empty sequence. -/
def pyMax : List Nat → Except PyErr Nat
  | [] => .error .valueError
  | x :: xs => .ok (xs.foldl max x)

/-- `self.occupancy_grid[r][c] = b` (numpy element assignment; indices are in
range on every executed path). -/
def setCell (grid : List (List Bool)) (r c : Nat) (b : Bool) : List (List Bool) :=
  match grid[r]? with
  | some row => grid.set r (row.set c b)
  | none => grid

/-- Loop state of `read_map`'s nested cell loop: the occupancy grid being
filled in plus the current values of `self.goal` and `self.init_pos`. -/
structure ReadSt where
  grid : List (List Bool)
  goal : Option (Nat × Nat)
  init_pos : Option (Nat × Nat)
deriving DecidableEq, Repr

/-- The body of `read_map`'s inner loop at row `r`, column `c`:

    if lines[r][c] == 'x': self.occupancy_grid[r][c] = True
    if lines[r][c] == 'g': self.goal = (r, c)
    elif lines[r][c] == 'i': self.init_pos = (r, c)

`lines[r][c]` raises `IndexError` when column `c` is beyond the end of the
(stripped) line `r` — rows shorter than the maximal width are *not* padded. -/
def readCell (lines : List (List Char)) (st : ReadSt) (r c : Nat) :
    Except PyErr ReadSt :=
  match lines[r]? with
  | none => .error .indexError
  | some ln =>
    match ln[c]? with
    | none => .error .indexError
    | some ch =>
      let grid := if ch = 'x' then setCell st.grid r c true else st.grid
      if ch = 'g' then .ok ⟨grid, some (r, c), st.init_pos⟩
      else if ch = 'i' then .ok ⟨grid, st.goal, some (r, c)⟩
      else .ok ⟨grid, st.goal, st.init_pos⟩

/-- `for c in range(cols)` at a fixed row, threading the loop state and
propagating the first exception. -/
def readRow (lines : List (List Char)) (r : Nat) :
    ReadSt → List Nat → Except PyErr ReadSt
  | st, [] => .ok st
  | st, c :: cs =>
    match readCell lines st r c with
    | .error e => .error e
    | .ok st' => readRow lines r st' cs

/-- `for r in range(rows): for c in range(cols)`. -/
def readRows (lines : List (List Char)) (cols : Nat) :
    ReadSt → List Nat → Except PyErr ReadSt
  | st, [] => .ok st
  | st, r :: rs =>
    match readRow lines r st (List.range cols) with
    | .error e => .error e
    | .ok st' => readRows lines cols st' rs

/-- `GridMap.read_map`, taking the file's lines (as `readlines()` would
deliver them, one `List Char` per line).  Mirrors the source:

    lines = [l.rstrip().lower() for l in map_file.readlines()]
    self.rows = len(lines)
    self.cols = max([len(l) for l in lines])        # ValueError if empty
    self.occupancy_grid = np.zeros((rows, cols), dtype=np.bool)
    for r in range(self.rows):
        for c in range(self.cols): ...              # see readCell

There is no validation of the `i`/`g` markers: a missing marker leaves the
field `none`, a repeated marker overwrites (the last occurrence wins). -/
def read_map (raw : List (List Char)) : Except PyErr GridMap :=
  let lines := raw.map processLine
  let rows := lines.length
  match pyMax (lines.map List.length) with
  | .error e => .error e
  | .ok cols =>
    let init : ReadSt :=
      ⟨List.replicate rows (List.replicate cols false), none, none⟩
    match readRows lines cols init (List.range rows) with
    | .error e => .error e
    | .ok st => .ok ⟨rows, cols, st.goal, st.init_pos, st.grid⟩

/-- `self.occupancy_grid[r, c]` as an optional read (`none` would be an
out-of-range access, which never happens on the executed paths the claims
quantify over). -/
def occAt (g : GridMap) (r c : Nat) : Option Bool :=
  match g.occupancy_grid[r]? with
  | none => none
  | some row => row[c]?

/-- The recognized action set `_ACTIONS = ['u', 'd', 'l', 'r']`. -/
def ACTIONS : List Char := ['u', 'd', 'l', 'r']

/-- `GridMap.transition(s, a)`.  `s` is a `(row, col)` tuple (`_Y = 0` row,
`_X = 1` col).  An action whose bound check fails leaves `new_pos = s`; an
action outside `_ACTIONS` reaches the `else` branch, which only prints
`"Unknown action"` and likewise leaves `new_pos = s`.  The final occupancy
test returns `s` when the new position is occupied, otherwise `new_pos`.
`none` models the `IndexError` of the occupancy read for an out-of-bounds
state (unreachable from in-bounds states).  `newPos` is the `new_pos`
computed by the chain of bound-checking `if`/`elif` branches. -/
def newPos (g : GridMap) (s : Nat × Nat) (a : Char) : Nat × Nat :=
  if a = 'u' then (if 0 < s.1 then (s.1 - 1, s.2) else s)
  else if a = 'd' then (if s.1 < g.rows - 1 then (s.1 + 1, s.2) else s)
  else if a = 'l' then (if 0 < s.2 then (s.1, s.2 - 1) else s)
  else if a = 'r' then (if s.2 < g.cols - 1 then (s.1, s.2 + 1) else s)
  else s

/-- The tail of `GridMap.transition`: `if self.occupancy_grid[new_pos]:
s_prime = tuple(s) else: s_prime = tuple(new_pos); return s_prime`. -/
def transition (g : GridMap) (s : Nat × Nat) (a : Char) : Option (Nat × Nat) :=
  match occAt g (newPos g s a).1 (newPos g s a).2 with
  | none => none
  | some true => some s
  | some false => some (newPos g s a)

/-- `GridMap.uninformed_heuristic(s)` (always 0). -/
def uninformed_heuristic (s : Nat × Nat) : Int := 0

/-! ## `SearchNode` and `backpath` -/

/-- `SearchNode.__init__(s, A, parent, parent_action, cost)`.  The constructor
stores copies of `s` and `A`; `parent`/`parent_action` default to Python
`None` and `cost` to 0 at call sites that omit them. -/
inductive SearchNode where
  | mk (state : Nat × Nat) (actions : List Char) (parent : Option SearchNode)
      (parent_action : Option Char) (cost : Int)

/-- `self.state` -/
def SearchNode.state : SearchNode → Nat × Nat
  | .mk s _ _ _ _ => s

/-- `self.actions` -/
def SearchNode.actions : SearchNode → List Char
  | .mk _ A _ _ _ => A

/-- `self.parent` -/
def SearchNode.parent : SearchNode → Option SearchNode
  | .mk _ _ p _ _ => p

/-- `self.parent_action` -/
def SearchNode.parent_action : SearchNode → Option Char
  | .mk _ _ _ pa _ => pa

/-- `self.cost` -/
def SearchNode.cost : SearchNode → Int
  | .mk _ _ _ _ c => c

/-- `backpath(node)` exactly as the source has it: the body consists of the
two initializations and a `# Fill me in!` comment, so it returns
`([], [])` for every input node. -/
def backpath (node : SearchNode) : List (Nat × Nat) × List Char :=
  ([], [])

/-! ## CPython `heapq` (as used by `PriorityQ`)

Embedded from the reference implementation in CPython's `Lib/heapq.py`
(the C accelerator has identical behaviour). -/

/-- A heap entry: the `(cost, x)` tuple pushed by `PriorityQ.push`. -/
abbrev Entry := Int × SearchNode

/-- Python `<` on two `(cost, node)` tuples: compares the costs, and on equal
costs falls through to `SearchNode < SearchNode`, a `TypeError` (`none`)
because `SearchNode` defines no ordering. -/
def entryLt (a b : Entry) : Option Bool :=
  if a.1 < b.1 then some true
  else if b.1 < a.1 then some false
  else none

/-- CPython `_siftdown(heap, startpos, pos)` after `newitem = heap[pos]` was
read: while `pos > startpos`, compare `newitem` with the parent; move the
parent down while `newitem < parent`; finally store `newitem` at the hole. -/
def siftdownAux (heap : List Entry) (startpos : Nat) (newitem : Entry)
    (pos : Nat) : Except PyErr (List Entry) :=
  if h : startpos < pos then
    let parentpos := (pos - 1) / 2
    match heap[parentpos]? with
    | none => .error .indexError
    | some parent =>
      match entryLt newitem parent with
      | none => .error .typeError
      | some true => siftdownAux (heap.set pos parent) startpos newitem parentpos
      | some false => .ok (heap.set pos newitem)
  else .ok (heap.set pos newitem)
termination_by pos
decreasing_by
  have := Nat.div_le_self (pos - 1) 2
  omega

/-- CPython `_siftdown(heap, startpos, pos)` including the initial
`newitem = heap[pos]` read. -/
def siftdownFrom (heap : List Entry) (startpos pos : Nat) :
    Except PyErr (List Entry) :=
  match heap[pos]? with
  | none => .error .indexError
  | some newitem => siftdownAux heap startpos newitem pos

/-- The loop of CPython `_siftup(heap, pos)`: move the smaller child up into
the hole until the hole has no child; `not heap[childpos] < heap[rightpos]`
selects the right child exactly when the comparison returns `False`
(equal costs raise `TypeError`).  Returns the shifted heap and the final
hole position. -/
def siftupAux (heap : List Entry) (pos : Nat) :
    Except PyErr (List Entry × Nat) :=
  if hc : 2 * pos + 1 < heap.length then
    match heap[2 * pos + 1]? with
    | none => .error .indexError
    | some childval =>
      if hr : 2 * pos + 2 < heap.length then
        match heap[2 * pos + 2]? with
        | none => .error .indexError
        | some rightval =>
          match entryLt childval rightval with
          | none => .error .typeError
          | some true => siftupAux (heap.set pos childval) (2 * pos + 1)
          | some false => siftupAux (heap.set pos rightval) (2 * pos + 2)
      else siftupAux (heap.set pos childval) (2 * pos + 1)
  else .ok (heap, pos)
termination_by heap.length - pos
decreasing_by all_goals (simp only [List.length_set]; omega)

/-- CPython `_siftup(heap, pos)`: read `newitem = heap[pos]`, run the loop,
store `newitem` in the final hole, then `_siftdown(heap, pos, finalpos)`. -/
def siftup (heap : List Entry) (pos : Nat) : Except PyErr (List Entry) :=
  match heap[pos]? with
  | none => .error .indexError
  | some newitem =>
    match siftupAux heap pos with
    | .error e => .error e
    | .ok (h2, finalpos) => siftdownAux (h2.set finalpos newitem) pos newitem finalpos

/-- CPython `heappush(heap, item)`: append, then
`_siftdown(heap, 0, len(heap) - 1)`. -/
def heappush (heap : List Entry) (item : Entry) : Except PyErr (List Entry) :=
  siftdownAux (heap ++ [item]) 0 item heap.length

/-- CPython `heappop(heap)`: pop the last element (`IndexError` when empty);
if elements remain, move the last element to the root and `_siftup(heap, 0)`;
returns the old root together with the remaining heap. -/
def heappop (heap : List Entry) : Except PyErr (Entry × List Entry) :=
  match heap.getLast? with
  | none => .error .indexError
  | some lastelt =>
    let rest := heap.dropLast
    match rest[0]? with
    | none => .ok (lastelt, [])
    | some returnitem =>
      match siftup (rest.set 0 lastelt) 0 with
      | .error e => .error e
      | .ok h3 => .ok (returnitem, h3)

/-- The loop of CPython `heapify(x)`:
`for i in reversed(range(n // 2)): _siftup(x, i)`. -/
def heapifyAux (heap : List Entry) : Nat → Except PyErr (List Entry)
  | 0 => .ok heap
  | i + 1 =>
    match siftup heap i with
    | .error e => .error e
    | .ok h2 => heapifyAux h2 i

/-- CPython `heapify(x)`. -/
def heapify (heap : List Entry) : Except PyErr (List Entry) :=
  heapifyAux heap (heap.length / 2)

/-! ## `PriorityQ` -/

/-- `PriorityQ`: `self.l` is the list storing the heap of `(cost, node)`
tuples, `self.s` the set of states used for fast membership testing. -/
structure PriorityQ where
  l : List Entry
  s : Finset (Nat × Nat)

/-- `PriorityQ.__init__`. -/
def PriorityQ.empty : PriorityQ := ⟨[], ∅⟩

/-- Python `set.remove`: raises `KeyError` when the element is absent. -/
def setRemove (s : Finset (Nat × Nat)) (x : Nat × Nat) :
    Except PyErr (Finset (Nat × Nat)) :=
  if x ∈ s then .ok (s.erase x) else .error .keyError

/-- The `for y in self.l: if x.state == y[1].state: self.l.remove(y); ...`
scan in `PriorityQ.replace`: removes the first entry whose node's state
matches, or reports that none matched (`none`).  (`list.remove` removes the
first element `== y`; since no earlier entry has the same state and Python
compares the node components by identity, that element is `y` itself.) -/
def removeFirstByState : List Entry → (Nat × Nat) → Option (List Entry)
  | [], _ => none
  | y :: ys, st =>
    if y.2.state = st then some ys
    else (removeFirstByState ys st).map (y :: ·)

/-- `PriorityQ.push(x, cost)` and `PriorityQ.replace(x, new_cost)`, which
call each other: `push` delegates to `replace` when `x.state` is already a
member and otherwise `heappush`es the `(cost, x)` tuple and adds the state;
`replace` removes the first entry whose state matches `x.state` (if any)
together with its state in `self.s`, re-`heapify`s, then calls `push` again.
The two method bodies are modelled as the two arms (`true` = `push`,
`false` = `replace`) of one function that is structurally recursive in a
`fuel` argument modelling Python's bounded call depth: the mutual
`push`/`replace` recursion consumes stack and aborts with `RecursionError`
at the limit (reachable only from a corrupted queue whose `self.s` holds a
state that `self.l` lacks). -/
def pushReplaceFuel :
    Nat → Bool → PriorityQ → SearchNode → Int → Except PyErr PriorityQ
  | 0, _, _, _, _ => .error .recursionError
  | fuel + 1, true, pq, x, cost =>
    if x.state ∈ pq.s then pushReplaceFuel fuel false pq x cost
    else
      match heappush pq.l (cost, x) with
      | .error e => .error e
      | .ok l2 => .ok ⟨l2, insert x.state pq.s⟩
  | fuel + 1, false, pq, x, new_cost =>
    match removeFirstByState pq.l x.state with
    | some l2 =>
      match setRemove pq.s x.state with
      | .error e => .error e
      | .ok s2 =>
        match heapify l2 with
        | .error e => .error e
        | .ok l3 => pushReplaceFuel fuel true ⟨l3, s2⟩ x new_cost
    | none =>
      match heapify pq.l with
      | .error e => .error e
      | .ok l3 => pushReplaceFuel fuel true ⟨l3, pq.s⟩ x new_cost

/-- Python's default recursion limit (`sys.getrecursionlimit()`). -/
def RECURSION_LIMIT : Nat := 1000

/-- `PriorityQ.push(x, cost)` at Python's default call-depth budget. -/
def PriorityQ.push (pq : PriorityQ) (x : SearchNode) (cost : Int) :
    Except PyErr PriorityQ :=
  pushReplaceFuel RECURSION_LIMIT true pq x cost

/-- `PriorityQ.replace(x, new_cost)` at Python's default call-depth budget. -/
def PriorityQ.replace (pq : PriorityQ) (x : SearchNode) (new_cost : Int) :
    Except PyErr PriorityQ :=
  pushReplaceFuel RECURSION_LIMIT false pq x new_cost

/-- `PriorityQ.pop()`: `heapq.heappop(self.l)` (so `IndexError` when the
frontier is empty), remove the popped node's state from `self.s`, return the
node (paired here with the updated queue). -/
def PriorityQ.pop (pq : PriorityQ) : Except PyErr (SearchNode × PriorityQ) :=
  match heappop pq.l with
  | .error e => .error e
  | .ok (x, l2) =>
    match setRemove pq.s x.2.state with
    | .error e => .error e
    | .ok s2 => .ok (x.2, ⟨l2, s2⟩)

/-- `PriorityQ.peak()`: `self.l[0]` (`IndexError` when empty). -/
def PriorityQ.peak (pq : PriorityQ) : Except PyErr SearchNode :=
  match pq.l[0]? with
  | none => .error .indexError
  | some y => .ok y.2

/-- The scan of `PriorityQ.get_cost(x)` over `self.l` (first match wins;
Python implicitly returns `None` when the loop finds nothing). -/
def getCostAux : List Entry → (Nat × Nat) → Option Int
  | [], _ => none
  | y :: ys, st => if st = y.2.state then some y.1 else getCostAux ys st

/-- `PriorityQ.get_cost(x)`. -/
def PriorityQ.get_cost (pq : PriorityQ) (x : SearchNode) : Option Int :=
  getCostAux pq.l x.state

/-- `PriorityQ.__contains__` (membership in `self.s`). -/
def PriorityQ.mem (pq : PriorityQ) (state : Nat × Nat) : Prop :=
  state ∈ pq.s

/-- `PriorityQ.__len__`. -/
def PriorityQ.len (pq : PriorityQ) : Nat := pq.l.length

/-! ## Method-call sequences on a `PriorityQ` -/

/-- One public mutating `PriorityQ` method call. -/
inductive PQOp where
  | push (x : SearchNode) (cost : Int)
  | pop
  | replace (x : SearchNode) (new_cost : Int)

/-- Run one method call (the node returned by `pop` is discarded). -/
def runOp (pq : PriorityQ) : PQOp → Except PyErr PriorityQ
  | .push x c => pq.push x c
  | .pop =>
    match pq.pop with
    | .error e => .error e
    | .ok (_, pq2) => .ok pq2
  | .replace x c => pq.replace x c

/-- Run a sequence of method calls, stopping at the first exception. -/
def runOps : PriorityQ → List PQOp → Except PyErr PriorityQ
  | pq, [] => .ok pq
  | pq, op :: ops =>
    match runOp pq op with
    | .error e => .error e
    | .ok pq2 => runOps pq2 ops

/-! ## Predicates and probe values used in the theorem statements -/

/-- The state `s` lies inside the grid: `[0, rows) × [0, cols)`. -/
def inBounds (g : GridMap) (s : Nat × Nat) : Prop :=
  s.1 < g.rows ∧ s.2 < g.cols

/-- The occupancy grid actually has the advertised `rows × cols` shape
(true of every grid `read_map` builds). -/
def gridShaped (g : GridMap) : Prop :=
  g.occupancy_grid.length = g.rows ∧
  ∀ row ∈ g.occupancy_grid, row.length = g.cols

/-- Modelled from the spec: the square action `a` *intends* to reach from
`s`, over `Int` coordinates so that stepping over the top/left edge is
representable.  An action outside the recognized set intends no move. -/
def specTarget (s : Nat × Nat) (a : Char) : Int × Int :=
  if a = 'u' then ((s.1 : Int) - 1, (s.2 : Int))
  else if a = 'd' then ((s.1 : Int) + 1, (s.2 : Int))
  else if a = 'l' then ((s.1 : Int), (s.2 : Int) - 1)
  else if a = 'r' then ((s.1 : Int), (s.2 : Int) + 1)
  else ((s.1 : Int), (s.2 : Int))

/-- Modelled from the spec: "applying `a` would leave the grid bounds". -/
def specLeavesBounds (g : GridMap) (s : Nat × Nat) (a : Char) : Prop :=
  (specTarget s a).1 < 0 ∨ (g.rows : Int) ≤ (specTarget s a).1 ∨
  (specTarget s a).2 < 0 ∨ (g.cols : Int) ≤ (specTarget s a).2

/-- Modelled from the spec: "applying `a` would land on an occupied cell". -/
def specHitsObstacle (g : GridMap) (s : Nat × Nat) (a : Char) : Prop :=
  ∃ r c : Nat, ((r : Int), (c : Int)) = specTarget s a ∧ occAt g r c = some true

/-- The states stored in the heap list, in heap order. -/
def heapStates (l : List Entry) : List (Nat × Nat) :=
  l.map (fun y => y.2.state)

/-- Claim C5's invariant: no two heap entries share a state, and the
membership set `self.s` holds exactly the states of the heap entries. -/
def PQInv (pq : PriorityQ) : Prop :=
  (heapStates pq.l).Nodup ∧ pq.s = (heapStates pq.l).toFinset

/-- Placeholder entry for out-of-range `costAt` reads (never used in range). -/
def dummyEntry : Entry := (0, .mk (0, 0) [] none none 0)

/-- The cost stored at heap slot `i`. -/
def costAt (l : List Entry) (i : Nat) : Int :=
  (l.getD i dummyEntry).1

/-- The binary min-heap ordering invariant maintained by `heapq`: every
non-root slot's cost is at least the cost at its parent slot `(i - 1) / 2`. -/
def heapInv (l : List Entry) : Prop :=
  ∀ j, 0 < j → j < l.length → costAt l ((j - 1) / 2) ≤ costAt l j

/-- `HeapDesc i j`: heap slot `j` lies in the subtree rooted at slot `i`
(the children of slot `i` are slots `2i+1` and `2i+2`). -/
inductive HeapDesc : Nat → Nat → Prop where
  | refl (i : Nat) : HeapDesc i i
  | left (i : Nat) {k : Nat} : HeapDesc (2 * i + 1) k → HeapDesc i k
  | right (i : Nat) {k : Nat} : HeapDesc (2 * i + 2) k → HeapDesc i k

/-- Probe node: a root `SearchNode` for state `(0, 0)`. -/
def probeA : SearchNode := .mk (0, 0) ACTIONS none none 0

/-- Probe node: a second, distinct node for the same state `(0, 0)`. -/
def probeB : SearchNode := .mk (0, 0) ACTIONS (some probeA) (some 'u') 3

/-- Probe node: a third node for state `(0, 0)`. -/
def probeC : SearchNode := .mk (0, 0) ACTIONS (some probeA) (some 'd') 7

/-- Probe node: a node for a different state `(0, 1)`. -/
def probeOther : SearchNode := .mk (0, 1) ACTIONS (some probeA) (some 'r') 1

/-- A concrete, well-shaped 3×3 map (the spec's scenario grid: column 2 is
blocked in rows 0 and 1, initial `(0,0)`, goal `(2,2)`). -/
def demoGrid : GridMap :=
  ⟨3, 3, some (2, 2), some (0, 0),
   [[false, false, true], [false, false, true], [false, false, false]]⟩

/-! ## Theorems: the environment model (`transition`, `read_map`) -/

/-- On a well-shaped grid every in-bounds occupancy read succeeds. -/
theorem occAt_exists (g : GridMap) (hw : gridShaped g) {r c : Nat}
    (hr : r < g.rows) (hc : c < g.cols) : ∃ b, occAt g r c = some b := by
  obtain ⟨hlen, hrow⟩ := hw
  have hr2 : r < g.occupancy_grid.length := by omega
  have hget : g.occupancy_grid[r]? = some g.occupancy_grid[r] :=
    List.getElem?_eq_getElem hr2
  have hmem : g.occupancy_grid[r] ∈ g.occupancy_grid := List.getElem_mem hr2
  have hc2 : c < (g.occupancy_grid[r]).length := by rw [hrow _ hmem]; exact hc
  refine ⟨(g.occupancy_grid[r])[c], ?_⟩
  unfold occAt
  rw [hget]
  exact List.getElem?_eq_getElem hc2

/-- `new_pos` never leaves the grid: every bound-checked branch stays inside. -/
theorem newPos_inBounds (g : GridMap) (s : Nat × Nat) (a : Char)
    (hs : inBounds g s) : inBounds g (newPos g s a) := by
  obtain ⟨h1, h2⟩ := hs
  unfold newPos inBounds
  split_ifs <;> simp_all <;> omega

/-- When `new_pos = s`, `transition` returns `s` (both occupancy outcomes
yield `s`). -/
theorem transition_eq_of_newPos_self (g : GridMap) (s : Nat × Nat) (a : Char)
    (hw : gridShaped g) (hs : inBounds g s) (hnp : newPos g s a = s) :
    transition g s a = some s := by
  obtain ⟨b, hb⟩ := occAt_exists g hw hs.1 hs.2
  unfold transition
  rw [hnp, hb]
  cases b <;> simp [hnp]

/-- When the target cell is occupied, `transition` returns `s`. -/
theorem transition_eq_of_occupied (g : GridMap) (s : Nat × Nat) (a : Char)
    (hocc : occAt g (newPos g s a).1 (newPos g s a).2 = some true) :
    transition g s a = some s := by
  unfold transition
  rw [hocc]

/-- C3 (confirmed): for every in-bounds state `s` and every action in
`{u, d, l, r}`, `transition` is a function of `(s, a)` (hence deterministic),
and whenever applying the action would leave the grid bounds or land on an
occupied cell it returns `s` unchanged — `some s`, no exception, and the grid
is untouched (the embedding is pure and `transition` never writes
`occupancy_grid`). -/
theorem c3_invalid_moves_self_loop (g : GridMap) (s : Nat × Nat) (a : Char)
    (hw : gridShaped g) (hs : inBounds g s) (ha : a ∈ ACTIONS)
    (hinv : specLeavesBounds g s a ∨ specHitsObstacle g s a) :
    transition g s a = some s := by
  have hs2 := hs
  obtain ⟨hr, hc⟩ := hs2
  simp only [ACTIONS, List.mem_cons, List.not_mem_nil, or_false] at ha
  rcases ha with rfl | rfl | rfl | rfl
  · -- a = 'u'
    by_cases hg : 0 < s.1
    · rcases hinv with hb | ⟨r2, c2, heq, hocc⟩
      · exfalso
        simp [specLeavesBounds, specTarget] at hb
        omega
      · refine transition_eq_of_occupied g s 'u' ?_
        simp [specTarget, Prod.mk.injEq] at heq
        have hr2 : r2 = s.1 - 1 := by omega
        have hc2 : c2 = s.2 := by omega
        have hnp : newPos g s 'u' = (s.1 - 1, s.2) := by
          simp [newPos, hg]
        rw [hnp]
        rw [hr2, hc2] at hocc
        exact hocc
    · refine transition_eq_of_newPos_self g s 'u' hw hs ?_
      simp [newPos, hg]
  · -- a = 'd'
    by_cases hg : s.1 < g.rows - 1
    · rcases hinv with hb | ⟨r2, c2, heq, hocc⟩
      · exfalso
        simp [specLeavesBounds, specTarget] at hb
        omega
      · refine transition_eq_of_occupied g s 'd' ?_
        simp [specTarget, Prod.mk.injEq] at heq
        have hr2 : r2 = s.1 + 1 := by omega
        have hc2 : c2 = s.2 := by omega
        have hnp : newPos g s 'd' = (s.1 + 1, s.2) := by
          simp [newPos, hg]
        rw [hnp]
        rw [hr2, hc2] at hocc
        exact hocc
    · refine transition_eq_of_newPos_self g s 'd' hw hs ?_
      simp [newPos, hg]
  · -- a = 'l'
    by_cases hg : 0 < s.2
    · rcases hinv with hb | ⟨r2, c2, heq, hocc⟩
      · exfalso
        simp [specLeavesBounds, specTarget] at hb
        omega
      · refine transition_eq_of_occupied g s 'l' ?_
        simp [specTarget, Prod.mk.injEq] at heq
        have hr2 : r2 = s.1 := by omega
        have hc2 : c2 = s.2 - 1 := by omega
        have hnp : newPos g s 'l' = (s.1, s.2 - 1) := by
          simp [newPos, hg]
        rw [hnp]
        rw [hr2, hc2] at hocc
        exact hocc
    · refine transition_eq_of_newPos_self g s 'l' hw hs ?_
      simp [newPos, hg]
  · -- a = 'r'
    by_cases hg : s.2 < g.cols - 1
    · rcases hinv with hb | ⟨r2, c2, heq, hocc⟩
      · exfalso
        simp [specLeavesBounds, specTarget] at hb
        omega
      · refine transition_eq_of_occupied g s 'r' ?_
        simp [specTarget, Prod.mk.injEq] at heq
        have hr2 : r2 = s.1 := by omega
        have hc2 : c2 = s.2 + 1 := by omega
        have hnp : newPos g s 'r' = (s.1, s.2 + 1) := by
          simp [newPos, hg]
        rw [hnp]
        rw [hr2, hc2] at hocc
        exact hocc
    · refine transition_eq_of_newPos_self g s 'r' hw hs ?_
      simp [newPos, hg]

/-- Witness for C3: on the spec's 3×3 demo grid, moving right from `(0,1)`
targets the occupied cell `(0,2)` and leaves the state unchanged. -/
theorem c3_invalid_moves_self_loop_witness :
    transition demoGrid (0, 1) 'r' = some (0, 1) :=
  c3_invalid_moves_self_loop demoGrid (0, 1) 'r' ⟨by decide, by decide⟩
    ⟨by decide, by decide⟩ (by decide) (Or.inr ⟨0, 2, by decide, by decide⟩)

/-- C9 counterexample: the unrecognized action `'z'` does not fail fast — the
code only prints `Unknown action` and falls through, returning the state
unchanged. -/
theorem c9_unknown_action_counterexample :
    transition demoGrid (0, 0) 'z' = some (0, 0) := rfl

/-- C9 (amended): an action outside the recognized set `{u, d, l, r}` is
silently ignored: after printing `Unknown action`, `transition` leaves
`new_pos = s` and returns `s` as a state (no exception is raised for any
state whose own cell can be read). -/
theorem c9_unknown_action_ignored (g : GridMap) (s : Nat × Nat) (a : Char)
    (b : Bool) (ha : a ∉ ACTIONS) (hb : occAt g s.1 s.2 = some b) :
    transition g s a = some s := by
  simp only [ACTIONS, List.mem_cons, List.not_mem_nil, or_false, not_or] at ha
  obtain ⟨h1, h2, h3, h4⟩ := ha
  have hnp : newPos g s a = s := by simp [newPos, h1, h2, h3, h4]
  unfold transition
  rw [hnp, hb]
  cases b <;> simp [hnp]

/-- Witness for C9: the unknown action `'z'` from the free cell `(0,0)`. -/
theorem c9_unknown_action_ignored_witness :
    transition demoGrid (0, 0) 'z' = some (0, 0) :=
  c9_unknown_action_ignored demoGrid (0, 0) 'z' false (by decide) (by decide)

/-- C10 (confirmed): the free in-bounds region is closed under `transition`:
from a free in-bounds state, any recognized action yields a free in-bounds
state (either the free target, or `s` itself when the move was blocked). -/
theorem c10_free_region_closed (g : GridMap) (s : Nat × Nat) (a : Char)
    (hw : gridShaped g) (hs : inBounds g s)
    (hfree : occAt g s.1 s.2 = some false) (ha : a ∈ ACTIONS) :
    ∃ t, transition g s a = some t ∧ inBounds g t ∧
      occAt g t.1 t.2 = some false := by
  have hnb := newPos_inBounds g s a hs
  obtain ⟨b, hb⟩ := occAt_exists g hw hnb.1 hnb.2
  cases b
  · exact ⟨newPos g s a, by unfold transition; rw [hb], hnb, hb⟩
  · exact ⟨s, by unfold transition; rw [hb], hs, hfree⟩

/-- Witness for C10: moving down from the free cell `(0,1)` of the demo grid
reaches a free in-bounds state. -/
theorem c10_free_region_closed_witness :
    ∃ t, transition demoGrid (0, 1) 'd' = some t ∧ inBounds demoGrid t ∧
      occAt demoGrid t.1 t.2 = some false :=
  c10_free_region_closed demoGrid (0, 1) 'd' ⟨by decide, by decide⟩
    ⟨by decide, by decide⟩ (by decide) (by decide)

/-- C6 counterexample: a two-row map whose second row is shorter than the
first is not padded — reading the missing cell raises `IndexError`. -/
theorem c6_short_row_counterexample :
    read_map [['x', 'x'], ['x']] = .error .indexError := rfl

/-- Helper: folding `max` over a constant list is the constant. -/
theorem foldl_max_const {W : Nat} :
    ∀ ys : List Nat, (∀ y ∈ ys, y = W) → List.foldl max W ys = W := by
  intro ys
  induction ys with
  | nil => intro _; rfl
  | cons y ys ih =>
    intro h
    have hy : y = W := h y (List.mem_cons_self y ys)
    simp only [List.foldl_cons, hy, max_self]
    exact ih fun z hz => h z (List.mem_cons_of_mem y hz)

/-- Helper: `max(xs)` of a nonempty constant list is the constant. -/
theorem pyMax_const {W : Nat} (xs : List Nat) (hall : ∀ x ∈ xs, x = W)
    (hne : xs ≠ []) : pyMax xs = .ok W := by
  cases xs with
  | nil => exact absurd rfl hne
  | cons x rest =>
    have hx : x = W := hall x (List.mem_cons_self x rest)
    simp only [pyMax, hx]
    rw [foldl_max_const rest fun z hz => hall z (List.mem_cons_of_mem x hz)]

/-- Helper: a cell read inside the line's length succeeds. -/
theorem readCell_ok {lines : List (List Char)} {r c : Nat} {ln : List Char}
    (hr : lines[r]? = some ln) (hc : c < ln.length) (st : ReadSt) :
    ∃ st2, readCell lines st r c = .ok st2 := by
  unfold readCell
  rw [hr]
  dsimp only
  rw [List.getElem?_eq_getElem hc]
  dsimp only
  split_ifs <;> exact ⟨_, rfl⟩

/-- Helper: a whole row of in-range cell reads succeeds. -/
theorem readRow_ok {lines : List (List Char)} {r : Nat} {ln : List Char}
    (hr : lines[r]? = some ln) :
    ∀ cs : List Nat, (∀ c ∈ cs, c < ln.length) → ∀ st : ReadSt,
      ∃ st2, readRow lines r st cs = .ok st2 := by
  intro cs
  induction cs with
  | nil => exact fun _ st => ⟨st, rfl⟩
  | cons c cs ih =>
    intro h st
    obtain ⟨st3, hst3⟩ := readCell_ok hr (h c (List.mem_cons_self c cs)) st
    obtain ⟨st2, hst2⟩ :=
      ih (fun z hz => h z (List.mem_cons_of_mem c hz)) st3
    exact ⟨st2, by unfold readRow; rw [hst3]; exact hst2⟩

/-- Helper: all rows succeed when every listed row is long enough. -/
theorem readRows_ok {lines : List (List Char)} {cols : Nat} :
    ∀ rs : List Nat,
      (∀ r ∈ rs, ∃ ln, lines[r]? = some ln ∧ cols ≤ ln.length) →
      ∀ st : ReadSt, ∃ st2, readRows lines cols st rs = .ok st2 := by
  intro rs
  induction rs with
  | nil => exact fun _ st => ⟨st, rfl⟩
  | cons r rs ih =>
    intro h st
    obtain ⟨ln, hr, hlen⟩ := h r (List.mem_cons_self r rs)
    have hcells : ∀ c ∈ List.range cols, c < ln.length := by
      intro c hcmem
      have := List.mem_range.mp hcmem
      omega
    obtain ⟨st3, hst3⟩ := readRow_ok hr (List.range cols) hcells st
    obtain ⟨st2, hst2⟩ := ih (fun z hz => h z (List.mem_cons_of_mem r hz)) st3
    exact ⟨st2, by unfold readRows; rw [hst3]; exact hst2⟩

/-- C6 (amended): `read_map` does set the grid width to the maximum line
length, but rows shorter than that width are *not* padded with free cells:
reading a missing trailing cell raises `IndexError` (see the counterexample),
and `read_map` runs to completion exactly on inputs all of whose (stripped,
lowercased) rows have the same length.  This theorem proves the success half:
a nonempty input whose processed rows all have length `W` loads without
error, with `rows` the number of lines and `cols = W`. -/
theorem c6_equal_rows_load (raw : List (List Char)) (W : Nat)
    (hne : raw ≠ []) (hlen : ∀ l ∈ raw, (processLine l).length = W) :
    ∃ g, read_map raw = .ok g ∧ g.rows = raw.length ∧ g.cols = W := by
  have hmax : pyMax ((raw.map processLine).map List.length) = .ok W := by
    refine pyMax_const _ ?_ ?_
    · intro x hx
      obtain ⟨l2, hl2, rfl⟩ := List.mem_map.mp hx
      obtain ⟨l3, hl3, rfl⟩ := List.mem_map.mp hl2
      exact hlen l3 hl3
    · simp only [ne_eq, List.map_eq_nil_iff]
      exact hne
  have hrows : ∀ r ∈ List.range (raw.map processLine).length,
      ∃ ln, (raw.map processLine)[r]? = some ln ∧ W ≤ ln.length := by
    intro r hmem
    have hrlt : r < (raw.map processLine).length := List.mem_range.mp hmem
    refine ⟨(raw.map processLine)[r], List.getElem?_eq_getElem hrlt, ?_⟩
    have hm : (raw.map processLine)[r] ∈ raw.map processLine :=
      List.getElem_mem hrlt
    obtain ⟨l3, hl3, heq⟩ := List.mem_map.mp hm
    rw [← heq, hlen l3 hl3]
  obtain ⟨st2, hst2⟩ := readRows_ok (List.range (raw.map processLine).length)
    hrows ⟨List.replicate (raw.map processLine).length (List.replicate W false),
      none, none⟩
  refine ⟨⟨(raw.map processLine).length, W, st2.goal, st2.init_pos, st2.grid⟩,
    ?_, by simp, rfl⟩
  simp only [read_map]
  rw [hmax]
  dsimp only
  rw [hst2]

/-- Witness for C6: a 2×2 map whose rows both have length 2 loads. -/
theorem c6_equal_rows_load_witness :
    ∃ g, read_map [['x', '0'], ['0', 'i']] = .ok g ∧
      g.rows = 2 ∧ g.cols = 2 := by
  have h := c6_equal_rows_load [['x', '0'], ['0', 'i']] 2 (by decide)
    (by decide)
  simpa using h

/-- C7 counterexample: a map with no initial marker and no goal marker loads
without any `MapFormatError` — `read_map` performs no marker validation. -/
theorem c7_no_validation_counterexample :
    read_map [['0']] = .ok ⟨1, 1, none, none, [[false]]⟩ := rfl

/-- C7 (amended): `read_map` never raises a `MapFormatError` (no such class
exists in the code).  A missing marker silently leaves the corresponding
field `None`; a duplicated marker silently overwrites, the last occurrence
winning; an empty file raises `ValueError` (from `max` of an empty sequence),
not `MapFormatError`; and a well-formed map with exactly one `i` and one `g`
loads with both fields set. -/
theorem c7_no_marker_validation :
    read_map [] = .error .valueError ∧
    (read_map [['0', '0']]).map (fun g => (g.goal, g.init_pos)) =
      .ok (none, none) ∧
    (read_map [['g', 'g']]).map (fun g => g.goal) = .ok (some (0, 1)) ∧
    (read_map [['i', 'g']]).map (fun g => (g.goal, g.init_pos)) =
      .ok (some (0, 1), some (0, 0)) :=
  ⟨rfl, rfl, rfl, rfl⟩

/-- C8 counterexample: `pop` on an empty frontier raises `IndexError` (from
`heapq.heappop` on the empty list), which is not the spec's
`EmptyFrontierError`. -/
theorem c8_pop_empty_counterexample :
    PriorityQ.empty.pop = .error .indexError ∧
    PyErr.indexError ≠ PyErr.emptyFrontierError :=
  ⟨rfl, by decide⟩

/-- C8 (amended): calling `pop` on an empty frontier fails with the built-in
`IndexError` raised by `heapq.heappop([])`; the code defines no
`EmptyFrontierError` class. -/
theorem c8_pop_empty_indexerror (pq : PriorityQ) (h : pq.l = []) :
    pq.pop = .error .indexError := by
  unfold PriorityQ.pop heappop
  rw [h]
  rfl

/-- Witness for C8: the freshly constructed queue. -/
theorem c8_pop_empty_indexerror_witness :
    PriorityQ.empty.pop = .error .indexError :=
  c8_pop_empty_indexerror PriorityQ.empty rfl

/-- C1 counterexample: pushing costs 5 then 3 then 7 for the same state
leaves the single entry at cost **7**, not 3 — `replace` swaps the stored
entry unconditionally, with no strictly-lower check. -/
theorem c1_no_relaxation_counterexample :
    (runOps PriorityQ.empty
        [.push probeA 5, .push probeB 3, .push probeC 7]).map
      (fun pq => getCostAux pq.l (0, 0)) = .ok (some 7) := by
  simp [runOps, runOp, PriorityQ.push, pushReplaceFuel, RECURSION_LIMIT,
    heappush, heapify, heapifyAux, siftdownAux, removeFirstByState, setRemove,
    getCostAux, PriorityQ.empty, probeA, probeB, probeC, entryLt,
    SearchNode.state, Except.map]

/-- C1 (amended): pushing a node whose state already has an entry replaces
the stored node and cost *unconditionally* (no cost comparison happens):
after pushes with costs 5 then 3 the frontier holds exactly one entry for the
state, at cost 3, and a subsequent push with any cost `c` (in particular 7)
again replaces it, leaving the entry at cost `c`. -/
theorem c1_unconditional_replace :
    ((runOps PriorityQ.empty [.push probeA 5, .push probeB 3]).map
        (fun pq => (pq.l.map (fun y => y.2.state), getCostAux pq.l (0, 0))) =
      .ok ([(0, 0)], some 3)) ∧
    ∀ c : Int,
      (runOps PriorityQ.empty
          [.push probeA 5, .push probeB 3, .push probeC c]).map
        (fun pq => (pq.l.map (fun y => y.2.state), getCostAux pq.l (0, 0))) =
      .ok ([(0, 0)], some c) := by
  constructor
  · simp [runOps, runOp, PriorityQ.push, pushReplaceFuel, RECURSION_LIMIT,
      heappush, heapify, heapifyAux, siftdownAux, removeFirstByState,
      setRemove, getCostAux, PriorityQ.empty, probeA, probeB, probeC, entryLt,
      SearchNode.state, Except.map]
  · intro c
    simp [runOps, runOp, PriorityQ.push, pushReplaceFuel, RECURSION_LIMIT,
      heappush, heapify, heapifyAux, siftdownAux, removeFirstByState,
      setRemove, getCostAux, PriorityQ.empty, probeA, probeB, probeC, entryLt,
      SearchNode.state, Except.map]

/-- C2 (code bug): `backpath` is an unimplemented stub (`# Fill me in!`): it
returns `([], [])` for every node, contradicting its own docstring — for a
root node the path must be the one-element list holding the node's state. -/
theorem c2_backpath_stub :
    backpath probeA = ([], []) ∧ (backpath probeA).1 ≠ [probeA.state] :=
  ⟨rfl, by decide⟩

/-! ## Permutation facts about the `heapq` embedding -/

/-- Setting a slot to the value another slot holds and then overwriting that
other slot permutes the list obtained by a single write. -/
theorem list_set_set_perm {α : Type} :
    ∀ (l : List α) (i j : Nat) (a b : α), i ≠ j → i < l.length →
      l[j]? = some a → ((l.set i a).set j b).Perm (l.set i b) := by
  intro l
  induction l with
  | nil => intro i j a b hij hi hj; simp at hi
  | cons x xs ih =>
    intro i j a b hij hi hj
    cases i with
    | zero =>
      cases j with
      | zero => exact absurd rfl hij
      | succ k =>
        simp only [List.getElem?_cons_succ] at hj
        obtain ⟨hk, hxk⟩ := List.getElem?_eq_some.mp hj
        simp only [List.set_cons_zero, List.set_cons_succ]
        have hxs : xs = xs.take k ++ a :: xs.drop (k + 1) := by
          conv_lhs => rw [← List.take_append_drop k xs]
          rw [List.drop_eq_getElem_cons hk, hxk]
        have hset : xs.set k b = xs.take k ++ b :: xs.drop (k + 1) :=
          List.set_eq_take_cons_drop b hk
        rw [hset]
        conv_rhs => rw [hxs]
        refine ((List.perm_middle.cons a).trans ?_).trans
          (List.perm_middle.cons b).symm
        exact List.Perm.swap b a _
    | succ k =>
      cases j with
      | zero =>
        have hx : x = a := by
          simpa using hj
        have hk : k < xs.length := by simpa using hi
        simp only [List.set_cons_succ, List.set_cons_zero, hx]
        have hseta : xs.set k a = xs.take k ++ a :: xs.drop (k + 1) :=
          List.set_eq_take_cons_drop a hk
        have hsetb : xs.set k b = xs.take k ++ b :: xs.drop (k + 1) :=
          List.set_eq_take_cons_drop b hk
        rw [hseta, hsetb]
        refine ((List.perm_middle.cons b).trans ?_).trans
          (List.perm_middle.cons a).symm
        exact List.Perm.swap a b _
      | succ m =>
        simp only [List.getElem?_cons_succ] at hj
        have hk : k < xs.length := by simpa using hi
        simp only [List.set_cons_succ]
        exact (ih k m a b (fun h => hij (by rw [h])) hk hj).cons x

/-- Writing back the value a slot already holds changes nothing. -/
theorem list_set_self {α : Type} (l : List α) (i : Nat) (a : α)
    (h : l[i]? = some a) : l.set i a = l := by
  obtain ⟨hi, hval⟩ := List.getElem?_eq_some.mp h
  rw [List.set_eq_take_cons_drop a hi, ← hval, ← List.drop_eq_getElem_cons hi,
    List.take_append_drop]

/-- `_siftdown` permutes the heap obtained by writing `newitem` at `pos`. -/
theorem siftdownAux_perm :
    ∀ (heap : List Entry) (sp : Nat) (item : Entry) (pos : Nat)
      (out : List Entry), pos < heap.length →
      siftdownAux heap sp item pos = .ok out →
      out.Perm (heap.set pos item) := by
  intro heap sp item pos
  induction heap, sp, item, pos using siftdownAux.induct with
  | case1 heap sp item pos hsp pp hpar =>
    intro out hlt h
    have hpar2 : heap[(pos - 1) / 2]? = none := hpar
    rw [siftdownAux, dif_pos hsp] at h
    simp only [hpar2] at h
    exact absurd h (by simp)
  | case2 heap sp item pos hsp pp parent hpar hcmp =>
    intro out hlt h
    have hpar2 : heap[(pos - 1) / 2]? = some parent := hpar
    rw [siftdownAux, dif_pos hsp] at h
    simp only [hpar2, hcmp] at h
    exact absurd h (by simp)
  | case3 heap sp item pos hsp pp parent hpar hcmp ih =>
    intro out hlt h
    have hpar2 : heap[(pos - 1) / 2]? = some parent := hpar
    rw [siftdownAux, dif_pos hsp] at h
    simp only [hpar2, hcmp] at h
    have hpp : (pos - 1) / 2 < pos := by
      have := Nat.div_le_self (pos - 1) 2
      omega
    have hlt2 : (pos - 1) / 2 < (heap.set pos parent).length := by
      rw [List.length_set]; omega
    exact (ih out hlt2 h).trans
      (list_set_set_perm heap pos ((pos - 1) / 2) parent item (by omega) hlt hpar2)
  | case4 heap sp item pos hsp pp parent hpar hcmp =>
    intro out hlt h
    have hpar2 : heap[(pos - 1) / 2]? = some parent := hpar
    rw [siftdownAux, dif_pos hsp] at h
    simp only [hpar2, hcmp, Except.ok.injEq] at h
    rw [← h]
  | case5 heap sp item pos hsp =>
    intro out hlt h
    rw [siftdownAux, dif_neg hsp] at h
    simp only [Except.ok.injEq] at h
    rw [← h]

/-- The `_siftup` loop: length is preserved, the final hole lies below the
initial one and has no children, and up to the hole's content the result is a
permutation of the input. -/
theorem siftupAux_spec :
    ∀ (heap : List Entry) (pos : Nat) (out : List Entry) (fp : Nat),
      siftupAux heap pos = .ok (out, fp) →
      out.length = heap.length ∧ pos ≤ fp ∧
      (pos < heap.length → fp < heap.length) ∧
      ¬ 2 * fp + 1 < heap.length ∧
      ∀ x, (out.set fp x).Perm (heap.set pos x) := by
  intro heap pos
  induction heap, pos using siftupAux.induct with
  | case1 heap pos hc h1 =>
    intro out fp h
    rw [siftupAux, dif_pos hc] at h
    simp only [h1] at h
    exact absurd h (by simp)
  | case2 heap pos hc cv h1 hr h2 =>
    intro out fp h
    rw [siftupAux, dif_pos hc] at h
    simp only [h1, dif_pos hr, h2] at h
    exact absurd h (by simp)
  | case3 heap pos hc cv h1 hr rv h2 hcmp =>
    intro out fp h
    rw [siftupAux, dif_pos hc] at h
    simp only [h1, dif_pos hr, h2, hcmp] at h
    exact absurd h (by simp)
  | case4 heap pos hc cv h1 hr rv h2 hcmp ih =>
    intro out fp h
    rw [siftupAux, dif_pos hc] at h
    simp only [h1, dif_pos hr, h2, hcmp] at h
    obtain ⟨ihlen, ihle, ihfp, ihnc, ihperm⟩ := ih out fp h
    rw [List.length_set] at ihlen ihfp ihnc
    have hpl : pos < heap.length := by omega
    refine ⟨ihlen, by omega, fun _ => ihfp hc, ihnc, fun x => ?_⟩
    exact (ihperm x).trans
      (list_set_set_perm heap pos (2 * pos + 1) cv x (by omega) hpl h1)
  | case5 heap pos hc cv h1 hr rv h2 hcmp ih =>
    intro out fp h
    rw [siftupAux, dif_pos hc] at h
    simp only [h1, dif_pos hr, h2, hcmp] at h
    obtain ⟨ihlen, ihle, ihfp, ihnc, ihperm⟩ := ih out fp h
    rw [List.length_set] at ihlen ihfp ihnc
    have hpl : pos < heap.length := by omega
    refine ⟨ihlen, by omega, fun _ => ihfp hr, ihnc, fun x => ?_⟩
    exact (ihperm x).trans
      (list_set_set_perm heap pos (2 * pos + 2) rv x (by omega) hpl h2)
  | case6 heap pos hc cv h1 hnr ih =>
    intro out fp h
    rw [siftupAux, dif_pos hc] at h
    simp only [h1, dif_neg hnr] at h
    obtain ⟨ihlen, ihle, ihfp, ihnc, ihperm⟩ := ih out fp h
    rw [List.length_set] at ihlen ihfp ihnc
    have hpl : pos < heap.length := by omega
    refine ⟨ihlen, by omega, fun _ => ihfp hc, ihnc, fun x => ?_⟩
    exact (ihperm x).trans
      (list_set_set_perm heap pos (2 * pos + 1) cv x (by omega) hpl h1)
  | case7 heap pos hnc =>
    intro out fp h
    rw [siftupAux, dif_neg hnc] at h
    simp only [Except.ok.injEq, Prod.mk.injEq] at h
    obtain ⟨h1, h2⟩ := h
    subst h1; subst h2
    exact ⟨rfl, le_refl _, fun h => h, hnc, fun x => List.Perm.refl _⟩

/-- CPython `_siftup` permutes the heap. -/
theorem siftup_perm (heap : List Entry) (pos : Nat) (out : List Entry)
    (h : siftup heap pos = .ok out) : out.Perm heap := by
  unfold siftup at h
  cases hp : heap[pos]? with
  | none => rw [hp] at h; exact absurd h (by simp)
  | some newitem =>
    rw [hp] at h
    cases hs : siftupAux heap pos with
    | error e => rw [hs] at h; exact absurd h (by simp)
    | ok pr =>
      obtain ⟨h2, fp⟩ := pr
      rw [hs] at h
      dsimp only at h
      obtain ⟨hlen, hle, hfp, hnc, hperm⟩ := siftupAux_spec heap pos h2 fp hs
      have hplen : pos < heap.length := (List.getElem?_eq_some.mp hp).1
      have hfp2 : fp < (h2.set fp newitem).length := by
        rw [List.length_set, hlen]; exact hfp hplen
      have hmain := siftdownAux_perm (h2.set fp newitem) pos newitem fp out hfp2 h
      rw [List.set_set] at hmain
      have h3 := hperm newitem
      rw [list_set_self heap pos newitem hp] at h3
      exact hmain.trans h3

/-- `heappush` permutes consing the item onto the heap. -/
theorem heappush_perm (heap : List Entry) (item : Entry) (out : List Entry)
    (h : heappush heap item = .ok out) : out.Perm (item :: heap) := by
  unfold heappush at h
  have hlen : heap.length < (heap ++ [item]).length := by simp
  have hperm := siftdownAux_perm (heap ++ [item]) 0 item heap.length out hlen h
  have hget : (heap ++ [item])[heap.length]? = some item := by
    rw [List.getElem?_append_right (le_refl _)]
    simp
  rw [list_set_self _ _ _ hget] at hperm
  exact hperm.trans (List.perm_append_singleton item heap)

/-- `heappop` returns the root, and re-consing it permutes the input heap. -/
theorem heappop_spec (heap : List Entry) (x : Entry) (out : List Entry)
    (h : heappop heap = .ok (x, out)) :
    heap[0]? = some x ∧ (x :: out).Perm heap := by
  unfold heappop at h
  cases hl : heap.getLast? with
  | none => rw [hl] at h; exact absurd h (by simp)
  | some lastelt =>
    rw [hl] at h
    dsimp only at h
    have hne : heap ≠ [] := by
      intro hcon; rw [hcon] at hl; simp at hl
    have hlast : heap.getLast hne = lastelt := by
      rw [List.getLast?_eq_getLast heap hne] at hl
      exact Option.some.inj hl
    have hdecomp : heap.dropLast ++ [lastelt] = heap := by
      rw [← hlast]; exact List.dropLast_append_getLast hne
    cases hr : heap.dropLast[0]? with
    | none =>
      rw [hr] at h
      simp only [Except.ok.injEq, Prod.mk.injEq] at h
      obtain ⟨hx, hout⟩ := h
      subst hx; subst hout
      have hrest : heap.dropLast = [] := by
        cases hd : heap.dropLast with
        | nil => rfl
        | cons a t => rw [hd] at hr; simp at hr
      rw [hrest] at hdecomp
      rw [← hdecomp]
      exact ⟨rfl, List.Perm.refl _⟩
    | some returnitem =>
      rw [hr] at h
      cases hs : siftup (heap.dropLast.set 0 lastelt) 0 with
      | error e => rw [hs] at h; exact absurd h (by simp)
      | ok h3 =>
        rw [hs] at h
        simp only [Except.ok.injEq, Prod.mk.injEq] at h
        obtain ⟨hx, hout⟩ := h
        subst hx; subst hout
        obtain ⟨tl, hrest⟩ : ∃ tl, heap.dropLast = returnitem :: tl := by
          cases hd : heap.dropLast with
          | nil => rw [hd] at hr; simp at hr
          | cons a t =>
            rw [hd] at hr
            simp only [List.getElem?_cons_zero, Option.some.injEq] at hr
            exact ⟨t, by rw [hr]⟩
        have hget0 : heap[0]? = some returnitem := by
          rw [← hdecomp, List.getElem?_append, if_pos (by rw [hrest]; simp)]
          rw [hrest]
          simp
        refine ⟨hget0, ?_⟩
        have hperm3 : h3.Perm (heap.dropLast.set 0 lastelt) :=
          siftup_perm _ 0 h3 hs
        rw [hrest, List.set_cons_zero] at hperm3
        refine (hperm3.cons returnitem).trans ?_
        have hstep : (returnitem :: lastelt :: tl).Perm
            ((returnitem :: tl) ++ [lastelt]) :=
          ((List.perm_append_singleton lastelt tl).symm.cons returnitem)
        refine hstep.trans ?_
        rw [← hrest, hdecomp]

/-- The `heapify` loop permutes the heap. -/
theorem heapifyAux_perm :
    ∀ (heap : List Entry) (n : Nat) (out : List Entry),
      heapifyAux heap n = .ok out → out.Perm heap := by
  intro heap n
  induction heap, n using heapifyAux.induct with
  | case1 heap =>
    intro out h
    rw [heapifyAux] at h
    simp only [Except.ok.injEq] at h
    rw [← h]
  | case2 heap i e hsift =>
    intro out h
    rw [heapifyAux, hsift] at h
    exact absurd h (by simp)
  | case3 heap i h3 hsift ih =>
    intro out h
    rw [heapifyAux, hsift] at h
    exact (ih out h).trans (siftup_perm heap i h3 hsift)

/-- `heapify` permutes the heap. -/
theorem heapify_perm (heap out : List Entry) (h : heapify heap = .ok out) :
    out.Perm heap :=
  heapifyAux_perm heap (heap.length / 2) out h

/-- A successful `replace`-scan removes exactly one entry whose node carries
the searched state. -/
theorem removeFirstByState_some :
    ∀ (l : List Entry) (st : Nat × Nat) (l2 : List Entry),
      removeFirstByState l st = some l2 →
      ∃ y : Entry, y.2.state = st ∧ l.Perm (y :: l2) := by
  intro l
  induction l with
  | nil => intro st l2 h; simp [removeFirstByState] at h
  | cons y ys ih =>
    intro st l2 h
    rw [removeFirstByState] at h
    split at h
    · next hy =>
      simp only [Option.some.injEq] at h
      exact ⟨y, hy, by rw [← h]⟩
    · next hy =>
      cases hrec : removeFirstByState ys st with
      | none => rw [hrec] at h; simp at h
      | some l2x =>
        rw [hrec] at h
        simp only [Option.map_some', Option.some.injEq] at h
        obtain ⟨z, hz, hperm⟩ := ih st l2x hrec
        refine ⟨z, hz, ?_⟩
        rw [← h]
        exact (hperm.cons y).trans (List.Perm.swap z y l2x)

/-- A failing `replace`-scan means no entry carries the searched state. -/
theorem removeFirstByState_none :
    ∀ (l : List Entry) (st : Nat × Nat),
      removeFirstByState l st = none → st ∉ heapStates l := by
  intro l
  induction l with
  | nil => intro st h; simp [heapStates]
  | cons y ys ih =>
    intro st h
    rw [removeFirstByState] at h
    split at h
    · simp at h
    · next hy =>
      cases hrec : removeFirstByState ys st with
      | none =>
        simp only [heapStates, List.map_cons, List.mem_cons, not_or]
        exact ⟨fun hc => hy hc.symm, ih st hrec⟩
      | some l2 => rw [hrec] at h; simp at h

/-- `set.remove` succeeds exactly on members, and erases. -/
theorem setRemove_ok (s : Finset (Nat × Nat)) (x : Nat × Nat)
    (s2 : Finset (Nat × Nat)) (h : setRemove s x = .ok s2) :
    x ∈ s ∧ s2 = s.erase x := by
  unfold setRemove at h
  split at h
  · next hmem => simp only [Except.ok.injEq] at h; exact ⟨hmem, h.symm⟩
  · exact absurd h (by simp)

/-- Relating the membership set to a heap permuted with one entry removed. -/
theorem pqinv_erase {l l2 : List Entry} {y : Entry} {s : Finset (Nat × Nat)}
    (hperm : l.Perm (y :: l2)) (hnd : (heapStates l).Nodup)
    (hs : s = (heapStates l).toFinset) :
    (heapStates l2).Nodup ∧ y.2.state ∉ heapStates l2 ∧
      s.erase y.2.state = (heapStates l2).toFinset := by
  have hmap : (heapStates l).Perm (y.2.state :: heapStates l2) := by
    simpa [heapStates] using hperm.map (fun e => e.2.state)
  have hnd2 : (y.2.state :: heapStates l2).Nodup := hmap.nodup hnd
  have hnotin : y.2.state ∉ heapStates l2 := (List.nodup_cons.mp hnd2).1
  refine ⟨(List.nodup_cons.mp hnd2).2, hnotin, ?_⟩
  rw [hs, List.toFinset_eq_of_perm _ _ hmap, List.toFinset_cons,
    Finset.erase_insert (by simpa using hnotin)]

/-- `push`/`replace` preserve the one-entry-per-state invariant at every
call-depth budget. -/
theorem pushReplaceFuel_inv :
    ∀ (fuel : Nat) (b : Bool) (pq : PriorityQ) (x : SearchNode) (c : Int)
      (out : PriorityQ), PQInv pq →
      pushReplaceFuel fuel b pq x c = .ok out → PQInv out := by
  intro fuel
  induction fuel with
  | zero =>
    intro b pq x c out hInv h
    rw [pushReplaceFuel] at h
    exact absurd h (by simp)
  | succ fuel ih =>
    intro b pq x c out hInv h
    cases b with
    | true =>
      rw [pushReplaceFuel] at h
      split at h
      · exact ih false pq x c out hInv h
      · next hmem =>
        cases hpush : heappush pq.l (c, x) with
        | error e => rw [hpush] at h; exact absurd h (by simp)
        | ok l2 =>
          rw [hpush] at h
          simp only [Except.ok.injEq] at h
          have hperm := heappush_perm pq.l (c, x) l2 hpush
          have hmap : (heapStates l2).Perm (x.state :: heapStates pq.l) := by
            simpa [heapStates] using hperm.map (fun e => e.2.state)
          have hnotin : x.state ∉ heapStates pq.l := by
            intro hc
            exact hmem (by rw [hInv.2]; exact List.mem_toFinset.mpr hc)
          refine ⟨?_, ?_⟩
          · rw [← h]
            exact hmap.symm.nodup (List.nodup_cons.mpr ⟨hnotin, hInv.1⟩)
          · rw [← h]
            dsimp only
            rw [hInv.2, ← List.toFinset_cons,
              List.toFinset_eq_of_perm _ _ hmap]
    | false =>
      rw [pushReplaceFuel] at h
      cases hrem : removeFirstByState pq.l x.state with
      | some l2 =>
        rw [hrem] at h
        dsimp only at h
        cases hsr : setRemove pq.s x.state with
        | error e => rw [hsr] at h; exact absurd h (by simp)
        | ok s2 =>
          rw [hsr] at h
          dsimp only at h
          cases hhf : heapify l2 with
          | error e => rw [hhf] at h; exact absurd h (by simp)
          | ok l3 =>
            rw [hhf] at h
            dsimp only at h
            obtain ⟨y, hy, hperm⟩ := removeFirstByState_some pq.l x.state l2 hrem
            obtain ⟨hnd2, hni2, hserase⟩ := pqinv_erase hperm hInv.1 hInv.2
            obtain ⟨hmem, hs2⟩ := setRemove_ok pq.s x.state s2 hsr
            have hperm3 : (heapStates l3).Perm (heapStates l2) := by
              simpa [heapStates] using
                (heapify_perm l2 l3 hhf).map (fun e => e.2.state)
            have hInv2 : PQInv ⟨l3, s2⟩ := by
              refine ⟨hperm3.symm.nodup hnd2, ?_⟩
              dsimp only
              rw [hs2, ← hy, hserase]
              exact (List.toFinset_eq_of_perm _ _ hperm3).symm
            exact ih true ⟨l3, s2⟩ x c out hInv2 h
      | none =>
        rw [hrem] at h
        dsimp only at h
        cases hhf : heapify pq.l with
        | error e => rw [hhf] at h; exact absurd h (by simp)
        | ok l3 =>
          rw [hhf] at h
          dsimp only at h
          have hperm3 : (heapStates l3).Perm (heapStates pq.l) := by
            simpa [heapStates] using
              (heapify_perm pq.l l3 hhf).map (fun e => e.2.state)
          have hInv2 : PQInv ⟨l3, pq.s⟩ := by
            refine ⟨hperm3.symm.nodup hInv.1, ?_⟩
            dsimp only
            rw [hInv.2]
            exact (List.toFinset_eq_of_perm _ _ hperm3).symm
          exact ih true ⟨l3, pq.s⟩ x c out hInv2 h

/-- `pop` preserves the one-entry-per-state invariant. -/
theorem pop_inv (pq : PriorityQ) (x : SearchNode) (out : PriorityQ)
    (hInv : PQInv pq) (h : pq.pop = .ok (x, out)) : PQInv out := by
  unfold PriorityQ.pop at h
  cases hpop : heappop pq.l with
  | error e => rw [hpop] at h; exact absurd h (by simp)
  | ok pr =>
    obtain ⟨y, l2⟩ := pr
    rw [hpop] at h
    dsimp only at h
    cases hsr : setRemove pq.s y.2.state with
    | error e => rw [hsr] at h; exact absurd h (by simp)
    | ok s2 =>
      rw [hsr] at h
      simp only [Except.ok.injEq, Prod.mk.injEq] at h
      obtain ⟨hx, hout⟩ := h
      obtain ⟨hget, hperm⟩ := heappop_spec pq.l y l2 hpop
      obtain ⟨hnd2, hni2, hserase⟩ := pqinv_erase hperm.symm hInv.1 hInv.2
      obtain ⟨hmem, hs2⟩ := setRemove_ok pq.s y.2.state s2 hsr
      rw [← hout]
      exact ⟨hnd2, by dsimp only; rw [hs2, hserase]⟩

/-- Every successful method call preserves the invariant. -/
theorem runOp_inv (pq : PriorityQ) (op : PQOp) (out : PriorityQ)
    (hInv : PQInv pq) (h : runOp pq op = .ok out) : PQInv out := by
  cases op with
  | push x c => exact pushReplaceFuel_inv RECURSION_LIMIT true pq x c out hInv h
  | replace x c =>
    exact pushReplaceFuel_inv RECURSION_LIMIT false pq x c out hInv h
  | pop =>
    unfold runOp at h
    cases hpop : pq.pop with
    | error e => rw [hpop] at h; exact absurd h (by simp)
    | ok pr =>
      obtain ⟨x, pq2⟩ := pr
      rw [hpop] at h
      simp only [Except.ok.injEq] at h
      rw [← h]
      exact pop_inv pq x pq2 hInv hpop

/-- Successful method-call sequences preserve the invariant. -/
theorem runOps_inv :
    ∀ (ops : List PQOp) (pq out : PriorityQ), PQInv pq →
      runOps pq ops = .ok out → PQInv out := by
  intro ops
  induction ops with
  | nil =>
    intro pq out hInv h
    rw [runOps] at h
    simp only [Except.ok.injEq] at h
    rw [← h]; exact hInv
  | cons op ops ih =>
    intro pq out hInv h
    rw [runOps] at h
    cases hop : runOp pq op with
    | error e => rw [hop] at h; exact absurd h (by simp)
    | ok pq2 => rw [hop] at h; exact ih pq2 out (runOp_inv pq op pq2 hInv hop) h

/-- C5 (confirmed): after any successful sequence of `push`, `pop` and
`replace` calls starting from the empty frontier, no two heap entries share a
state, and the membership set `self.s` holds exactly the states of the heap
entries. -/
theorem c5_one_entry_per_state (ops : List PQOp) (pq : PriorityQ)
    (h : runOps PriorityQ.empty ops = .ok pq) :
    (heapStates pq.l).Nodup ∧ pq.s = (heapStates pq.l).toFinset :=
  runOps_inv ops PriorityQ.empty pq ⟨List.nodup_nil, rfl⟩ h

/-- Witness for C5: two pushes for distinct states from the empty frontier. -/
theorem c5_one_entry_per_state_witness :
    (heapStates [((3 : Int), probeOther), ((5 : Int), probeA)]).Nodup ∧
      (insert ((0 : Nat), (1 : Nat)) (insert (0, 0) (∅ : Finset (Nat × Nat)))) =
        (heapStates [((3 : Int), probeOther), ((5 : Int), probeA)]).toFinset :=
  c5_one_entry_per_state [.push probeA 5, .push probeOther 3]
    ⟨[(3, probeOther), (5, probeA)], insert (0, 1) (insert (0, 0) ∅)⟩
    (by simp [runOps, runOp, PriorityQ.push, pushReplaceFuel, RECURSION_LIMIT,
      heappush, siftdownAux, entryLt, PriorityQ.empty, probeA, probeOther,
      SearchNode.state, List.set])

/-! ## Heap-order correctness of the `heapq` embedding -/

/-- A successful `<` on entries is a strict cost comparison. -/
theorem entryLt_true {a b : Entry} (h : entryLt a b = some true) :
    a.1 < b.1 := by
  unfold entryLt at h
  split_ifs at h with h1 h2 <;> simp_all

/-- A failed `<` (returning `False`) means the costs compare the other way. -/
theorem entryLt_false {a b : Entry} (h : entryLt a b = some false) :
    b.1 < a.1 := by
  unfold entryLt at h
  split_ifs at h with h1 h2 <;> simp_all

/-- `costAt` after an in-range write at the same slot. -/
theorem costAt_set_self {l : List Entry} {i : Nat} (v : Entry)
    (h : i < l.length) : costAt (l.set i v) i = v.1 := by
  unfold costAt
  rw [List.getD_eq_getElem?_getD, List.getElem?_set_self h]
  rfl

/-- `costAt` after a write at a different slot. -/
theorem costAt_set_ne {l : List Entry} {i j : Nat} (v : Entry)
    (h : i ≠ j) : costAt (l.set i v) j = costAt l j := by
  unfold costAt
  rw [List.getD_eq_getElem?_getD, List.getElem?_set_ne h,
    ← List.getD_eq_getElem?_getD]

/-- `costAt` reads the stored entry. -/
theorem costAt_of_getElem? {l : List Entry} {i : Nat} {e : Entry}
    (h : l[i]? = some e) : costAt l i = e.1 := by
  unfold costAt
  rw [List.getD_eq_getElem?_getD, h]
  rfl

/-- `costAt` is stable under appending, below the original length. -/
theorem costAt_append_lt {l l2 : List Entry} {j : Nat} (h : j < l.length) :
    costAt (l ++ l2) j = costAt l j := by
  unfold costAt
  rw [List.getD_eq_getElem?_getD, List.getElem?_append, if_pos h,
    ← List.getD_eq_getElem?_getD]

/-- `costAt` is stable under dropping the last element, below the new length. -/
theorem costAt_dropLast {l : List Entry} {j : Nat} (h : j < l.length - 1) :
    costAt l.dropLast j = costAt l j := by
  unfold costAt
  rw [List.getD_eq_getElem?_getD, List.getElem?_dropLast, if_pos h,
    ← List.getD_eq_getElem?_getD]

/-- A heap slot is at or below the root of its subtree. -/
theorem HeapDesc.le : ∀ {i j : Nat}, HeapDesc i j → i ≤ j := by
  intro i j h
  induction h with
  | refl i => exact le_refl i
  | left i h ih => omega
  | right i h ih => omega

/-- Subtree containment is transitive. -/
theorem HeapDesc.trans {i j k : Nat} (hij : HeapDesc i j) :
    HeapDesc j k → HeapDesc i k := by
  induction hij with
  | refl i => exact fun h => h
  | left i h ih => exact fun hjk => .left i (ih hjk)
  | right i h ih => exact fun hjk => .right i (ih hjk)

/-- A child slot lies in any subtree its parent lies in. -/
theorem HeapDesc.child {i p j : Nat} (hp : HeapDesc i p) (hj : 0 < j)
    (hpar : (j - 1) / 2 = p) : HeapDesc i j := by
  have hcases : j = 2 * p + 1 ∨ j = 2 * p + 2 := by omega
  rcases hcases with rfl | rfl
  · exact hp.trans (.left p (.refl _))
  · exact hp.trans (.right p (.refl _))

/-- The parent of a strict descendant stays inside the subtree. -/
theorem HeapDesc.parent_of_lt : ∀ {i j : Nat}, HeapDesc i j → i < j →
    HeapDesc i ((j - 1) / 2) := by
  intro i j h
  induction h with
  | refl i => intro hc; exact absurd hc (lt_irrefl i)
  | left i hsub ih =>
    rename_i k
    intro hlt
    by_cases hj : 2 * i + 1 < k
    · exact .left i (ih hj)
    · have hle := hsub.le
      have hk : k = 2 * i + 1 := by omega
      subst hk
      have he : (2 * i + 1 - 1) / 2 = i := by omega
      rw [he]
      exact .refl i
  | right i hsub ih =>
    rename_i k
    intro hlt
    by_cases hj : 2 * i + 2 < k
    · exact .right i (ih hj)
    · have hle := hsub.le
      have hk : k = 2 * i + 2 := by omega
      subst hk
      have he : (2 * i + 2 - 1) / 2 = i := by omega
      rw [he]
      exact .refl i

/-- Every slot lies in the subtree of the root. -/
theorem HeapDesc.root : ∀ j : Nat, HeapDesc 0 j := by
  intro j
  induction j using Nat.strong_induction_on with
  | _ j ih =>
    cases Nat.eq_zero_or_pos j with
    | inl h => rw [h]; exact .refl 0
    | inr h =>
      have hp : (j - 1) / 2 < j := by omega
      exact (ih _ hp).child h rfl

/-- `_siftdown` heap-orders the subtree rooted at `startpos`: if the heap is
ordered inside that subtree except around the hole at `pos` (whose pending
content is `item`, already below the hole's children and above nothing), then
after the sift every parent-child pair strictly inside the subtree is
ordered. -/
theorem siftdownAux_order :
    ∀ (heap : List Entry) (sp : Nat) (item : Entry) (pos : Nat)
      (out : List Entry),
      siftdownAux heap sp item pos = .ok out →
      HeapDesc sp pos → pos < heap.length →
      (∀ j, 0 < j → j < heap.length → HeapDesc sp j → j ≠ sp → j ≠ pos →
        (j - 1) / 2 ≠ pos → costAt heap ((j - 1) / 2) ≤ costAt heap j) →
      (∀ j, 0 < j → j < heap.length → (j - 1) / 2 = pos →
        item.1 ≤ costAt heap j) →
      (sp < pos → ∀ j, 0 < j → j < heap.length → (j - 1) / 2 = pos →
        costAt heap ((pos - 1) / 2) ≤ costAt heap j) →
      ∀ j, 0 < j → j < out.length → HeapDesc sp j → j ≠ sp →
        costAt out ((j - 1) / 2) ≤ costAt out j := by
  intro heap sp item pos
  induction heap, sp, item, pos using siftdownAux.induct with
  | case1 heap sp item pos hsp pp hpar =>
    intro out h
    have hpar2 : heap[(pos - 1) / 2]? = none := hpar
    rw [siftdownAux, dif_pos hsp] at h
    simp only [hpar2] at h
    exact absurd h (by simp)
  | case2 heap sp item pos hsp pp parent hpar hcmp =>
    intro out h
    have hpar2 : heap[(pos - 1) / 2]? = some parent := hpar
    rw [siftdownAux, dif_pos hsp] at h
    simp only [hpar2, hcmp] at h
    exact absurd h (by simp)
  | case3 heap sp item pos hsp pp parent hpar hcmp ih =>
    intro out h hdesc hlen hD1 hD2 hD3
    have hpar2 : heap[(pos - 1) / 2]? = some parent := hpar
    rw [siftdownAux, dif_pos hsp] at h
    simp only [hpar2, hcmp] at h
    have hlt := entryLt_true hcmp
    have hppar : costAt heap ((pos - 1) / 2) = parent.1 :=
      costAt_of_getElem? hpar2
    have hpplt : (pos - 1) / 2 < pos := by
      have := Nat.div_le_self (pos - 1) 2; omega
    have hdesc2 : HeapDesc sp ((pos - 1) / 2) := hdesc.parent_of_lt hsp
    refine ih out h hdesc2 (by rw [List.length_set]; omega) ?_ ?_ ?_
    · intro j hj0 hjl hjd hjsp hjpp hjppne
      rw [List.length_set] at hjl
      by_cases hjpos : j = pos
      · exact absurd (by rw [hjpos]) hjppne
      · by_cases hjparpos : (j - 1) / 2 = pos
        · rw [costAt_set_ne parent (fun hc => hjpos hc.symm), hjparpos,
            costAt_set_self parent hlen]
          have hx := hD3 hsp j hj0 hjl hjparpos
          rw [hppar] at hx
          exact hx
        · rw [costAt_set_ne parent (fun hc => hjpos hc.symm),
            costAt_set_ne parent (fun hc => hjparpos hc.symm)]
          exact hD1 j hj0 hjl hjd hjsp hjpos hjparpos
    · intro j hj0 hjl hjpar
      rw [List.length_set] at hjl
      by_cases hjpos : j = pos
      · rw [hjpos, costAt_set_self parent hlen]
        omega
      · rw [costAt_set_ne parent (fun hc => hjpos hc.symm)]
        have hjd : HeapDesc sp j := hdesc2.child hj0 hjpar
        have hsppp := hdesc2.le
        have hjsp : j ≠ sp := by omega
        have hx := hD1 j hj0 hjl hjd hjsp hjpos (by omega)
        rw [hjpar, hppar] at hx
        omega
    · intro hsp2 j hj0 hjl hjpar
      rw [List.length_set] at hjl
      have hppp_ne : ((pos - 1) / 2 - 1) / 2 ≠ pos := by omega
      have hpppp : costAt heap (((pos - 1) / 2 - 1) / 2) ≤
          costAt heap ((pos - 1) / 2) :=
        hD1 ((pos - 1) / 2) (by omega) (by omega) hdesc2 (by omega) (by omega)
          (by omega)
      by_cases hjpos : j = pos
      · rw [hjpos, costAt_set_self parent hlen,
          costAt_set_ne parent (Ne.symm hppp_ne)]
        rw [← hppar]
        exact hpppp
      · rw [costAt_set_ne parent (Ne.symm hppp_ne),
          costAt_set_ne parent (fun hc => hjpos hc.symm)]
        have hjd : HeapDesc sp j := hdesc2.child hj0 hjpar
        have hsppp := hdesc2.le
        have hjsp : j ≠ sp := by omega
        have hx := hD1 j hj0 hjl hjd hjsp hjpos (by omega)
        rw [hjpar, hppar] at hx
        rw [hppar] at hpppp
        omega
  | case4 heap sp item pos hsp pp parent hpar hcmp =>
    intro out h hdesc hlen hD1 hD2 hD3
    have hpar2 : heap[(pos - 1) / 2]? = some parent := hpar
    rw [siftdownAux, dif_pos hsp] at h
    simp only [hpar2, hcmp, Except.ok.injEq] at h
    subst h
    have hgt := entryLt_false hcmp
    have hppar : costAt heap ((pos - 1) / 2) = parent.1 :=
      costAt_of_getElem? hpar2
    have hpplt : (pos - 1) / 2 < pos := by
      have := Nat.div_le_self (pos - 1) 2; omega
    intro j hj0 hjl hjd hjsp
    rw [List.length_set] at hjl
    by_cases hjpos : j = pos
    · rw [hjpos, costAt_set_self item hlen,
        costAt_set_ne item (by omega)]
      rw [hppar]
      omega
    · by_cases hjpar : (j - 1) / 2 = pos
      · rw [hjpar, costAt_set_self item hlen,
          costAt_set_ne item (fun hc => hjpos hc.symm)]
        exact hD2 j hj0 hjl hjpar
      · rw [costAt_set_ne item (fun hc => hjpar hc.symm),
          costAt_set_ne item (fun hc => hjpos hc.symm)]
        exact hD1 j hj0 hjl hjd hjsp hjpos hjpar
  | case5 heap sp item pos hsp =>
    intro out h hdesc hlen hD1 hD2 hD3
    rw [siftdownAux, dif_neg hsp] at h
    simp only [Except.ok.injEq] at h
    subst h
    have hle := hdesc.le
    have hpos : pos = sp := by omega
    intro j hj0 hjl hjd hjsp
    rw [List.length_set] at hjl
    by_cases hjpar : (j - 1) / 2 = pos
    · rw [hjpar, costAt_set_self item hlen,
        costAt_set_ne item (fun hc => hjsp (by omega))]
      exact hD2 j hj0 hjl hjpar
    · rw [costAt_set_ne item (fun hc => hjpar hc.symm),
        costAt_set_ne item (fun hc => hjsp (by omega))]
      exact hD1 j hj0 hjl hjd hjsp (by omega) hjpar

/-- `_siftdown` only writes inside the subtree rooted at `startpos`. -/
theorem siftdownAux_frame :
    ∀ (heap : List Entry) (sp : Nat) (item : Entry) (pos : Nat)
      (out : List Entry),
      siftdownAux heap sp item pos = .ok out → HeapDesc sp pos →
      ∀ q, ¬ HeapDesc sp q → costAt out q = costAt heap q := by
  intro heap sp item pos
  induction heap, sp, item, pos using siftdownAux.induct with
  | case1 heap sp item pos hsp pp hpar =>
    intro out h
    have hpar2 : heap[(pos - 1) / 2]? = none := hpar
    rw [siftdownAux, dif_pos hsp] at h
    simp only [hpar2] at h
    exact absurd h (by simp)
  | case2 heap sp item pos hsp pp parent hpar hcmp =>
    intro out h
    have hpar2 : heap[(pos - 1) / 2]? = some parent := hpar
    rw [siftdownAux, dif_pos hsp] at h
    simp only [hpar2, hcmp] at h
    exact absurd h (by simp)
  | case3 heap sp item pos hsp pp parent hpar hcmp ih =>
    intro out h hdesc q hq
    have hpar2 : heap[(pos - 1) / 2]? = some parent := hpar
    rw [siftdownAux, dif_pos hsp] at h
    simp only [hpar2, hcmp] at h
    have hqpos : q ≠ pos := fun hc => hq (hc ▸ hdesc)
    rw [ih out h (hdesc.parent_of_lt hsp) q hq,
      costAt_set_ne parent (fun hc => hqpos hc.symm)]
  | case4 heap sp item pos hsp pp parent hpar hcmp =>
    intro out h hdesc q hq
    have hpar2 : heap[(pos - 1) / 2]? = some parent := hpar
    rw [siftdownAux, dif_pos hsp] at h
    simp only [hpar2, hcmp, Except.ok.injEq] at h
    subst h
    have hqpos : q ≠ pos := fun hc => hq (hc ▸ hdesc)
    rw [costAt_set_ne item (fun hc => hqpos hc.symm)]
  | case5 heap sp item pos hsp =>
    intro out h hdesc q hq
    rw [siftdownAux, dif_neg hsp] at h
    simp only [Except.ok.injEq] at h
    subst h
    have hqpos : q ≠ pos := fun hc => hq (hc ▸ hdesc)
    rw [costAt_set_ne item (fun hc => hqpos hc.symm)]

/-- The `_siftup` loop moves the hole downward in the tree. -/
theorem siftupAux_desc :
    ∀ (heap : List Entry) (pos : Nat) (out : List Entry) (fp : Nat),
      siftupAux heap pos = .ok (out, fp) → HeapDesc pos fp := by
  intro heap pos
  induction heap, pos using siftupAux.induct with
  | case1 heap pos hc h1 =>
    intro out fp h
    rw [siftupAux, dif_pos hc] at h
    simp only [h1] at h
    exact absurd h (by simp)
  | case2 heap pos hc cv h1 hr h2 =>
    intro out fp h
    rw [siftupAux, dif_pos hc] at h
    simp only [h1, dif_pos hr, h2] at h
    exact absurd h (by simp)
  | case3 heap pos hc cv h1 hr rv h2 hcmp =>
    intro out fp h
    rw [siftupAux, dif_pos hc] at h
    simp only [h1, dif_pos hr, h2, hcmp] at h
    exact absurd h (by simp)
  | case4 heap pos hc cv h1 hr rv h2 hcmp ih =>
    intro out fp h
    rw [siftupAux, dif_pos hc] at h
    simp only [h1, dif_pos hr, h2, hcmp] at h
    exact HeapDesc.child (.refl pos) (by omega) (by omega) |>.trans (ih out fp h)
  | case5 heap pos hc cv h1 hr rv h2 hcmp ih =>
    intro out fp h
    rw [siftupAux, dif_pos hc] at h
    simp only [h1, dif_pos hr, h2, hcmp] at h
    exact HeapDesc.child (.refl pos) (by omega) (by omega) |>.trans (ih out fp h)
  | case6 heap pos hc cv h1 hnr ih =>
    intro out fp h
    rw [siftupAux, dif_pos hc] at h
    simp only [h1, dif_neg hnr] at h
    exact HeapDesc.child (.refl pos) (by omega) (by omega) |>.trans (ih out fp h)
  | case7 heap pos hnc =>
    intro out fp h
    rw [siftupAux, dif_neg hnc] at h
    simp only [Except.ok.injEq, Prod.mk.injEq] at h
    rw [← h.2]
    exact .refl pos

/-- The `_siftup` loop only writes inside the subtree rooted at the hole. -/
theorem siftupAux_frame :
    ∀ (heap : List Entry) (pos : Nat) (sp : Nat) (out : List Entry) (fp : Nat),
      siftupAux heap pos = .ok (out, fp) → HeapDesc sp pos →
      ∀ q, ¬ HeapDesc sp q → costAt out q = costAt heap q := by
  intro heap pos
  induction heap, pos using siftupAux.induct with
  | case1 heap pos hc h1 =>
    intro sp out fp h
    rw [siftupAux, dif_pos hc] at h
    simp only [h1] at h
    exact absurd h (by simp)
  | case2 heap pos hc cv h1 hr h2 =>
    intro sp out fp h
    rw [siftupAux, dif_pos hc] at h
    simp only [h1, dif_pos hr, h2] at h
    exact absurd h (by simp)
  | case3 heap pos hc cv h1 hr rv h2 hcmp =>
    intro sp out fp h
    rw [siftupAux, dif_pos hc] at h
    simp only [h1, dif_pos hr, h2, hcmp] at h
    exact absurd h (by simp)
  | case4 heap pos hc cv h1 hr rv h2 hcmp ih =>
    intro sp out fp h hdesc q hq
    rw [siftupAux, dif_pos hc] at h
    simp only [h1, dif_pos hr, h2, hcmp] at h
    have hqpos : q ≠ pos := fun hc2 => hq (hc2 ▸ hdesc)
    rw [ih sp out fp h (hdesc.child (by omega) (by omega)) q hq,
      costAt_set_ne cv (fun hc2 => hqpos hc2.symm)]
  | case5 heap pos hc cv h1 hr rv h2 hcmp ih =>
    intro sp out fp h hdesc q hq
    rw [siftupAux, dif_pos hc] at h
    simp only [h1, dif_pos hr, h2, hcmp] at h
    have hqpos : q ≠ pos := fun hc2 => hq (hc2 ▸ hdesc)
    rw [ih sp out fp h (hdesc.child (by omega) (by omega)) q hq,
      costAt_set_ne rv (fun hc2 => hqpos hc2.symm)]
  | case6 heap pos hc cv h1 hnr ih =>
    intro sp out fp h hdesc q hq
    rw [siftupAux, dif_pos hc] at h
    simp only [h1, dif_neg hnr] at h
    have hqpos : q ≠ pos := fun hc2 => hq (hc2 ▸ hdesc)
    rw [ih sp out fp h (hdesc.child (by omega) (by omega)) q hq,
      costAt_set_ne cv (fun hc2 => hqpos hc2.symm)]
  | case7 heap pos hnc =>
    intro sp out fp h hdesc q hq
    rw [siftupAux, dif_neg hnc] at h
    simp only [Except.ok.injEq, Prod.mk.injEq] at h
    rw [← h.1]

/-- The `_siftup` loop keeps the subtree rooted at `sp` ordered away from the
hole while moving the hole to a childless slot: the hole always stays in the
subtree, pairs not parented by the hole stay ordered, and the hole's children
dominate the cost at the hole's parent. -/
theorem siftupAux_order :
    ∀ (heap : List Entry) (pos : Nat) (sp : Nat) (out : List Entry) (fp : Nat),
      siftupAux heap pos = .ok (out, fp) →
      HeapDesc sp pos → pos < heap.length →
      (∀ j, 0 < j → j < heap.length → HeapDesc sp j → j ≠ sp →
        (j - 1) / 2 ≠ pos → costAt heap ((j - 1) / 2) ≤ costAt heap j) →
      (sp < pos → ∀ j, 0 < j → j < heap.length → (j - 1) / 2 = pos →
        costAt heap ((pos - 1) / 2) ≤ costAt heap j) →
      HeapDesc sp fp ∧
      (∀ j, 0 < j → j < out.length → HeapDesc sp j → j ≠ sp →
        (j - 1) / 2 ≠ fp → costAt out ((j - 1) / 2) ≤ costAt out j) ∧
      (sp < fp → ∀ j, 0 < j → j < out.length → (j - 1) / 2 = fp →
        costAt out ((fp - 1) / 2) ≤ costAt out j) := by
  intro heap pos
  induction heap, pos using siftupAux.induct with
  | case1 heap pos hc h1 =>
    intro sp out fp h
    rw [siftupAux, dif_pos hc] at h
    simp only [h1] at h
    exact absurd h (by simp)
  | case2 heap pos hc cv h1 hr h2 =>
    intro sp out fp h
    rw [siftupAux, dif_pos hc] at h
    simp only [h1, dif_pos hr, h2] at h
    exact absurd h (by simp)
  | case3 heap pos hc cv h1 hr rv h2 hcmp =>
    intro sp out fp h
    rw [siftupAux, dif_pos hc] at h
    simp only [h1, dif_pos hr, h2, hcmp] at h
    exact absurd h (by simp)
  | case4 heap pos hc cv h1 hr rv h2 hcmp ih =>
    intro sp out fp h hdesc hlen hU1 hU2
    rw [siftupAux, dif_pos hc] at h
    simp only [h1, dif_pos hr, h2, hcmp] at h
    have hcvrv := entryLt_true hcmp
    have hcvval : costAt heap (2 * pos + 1) = cv.1 := costAt_of_getElem? h1
    have hrvval : costAt heap (2 * pos + 2) = rv.1 := costAt_of_getElem? h2
    have hdc : HeapDesc sp (2 * pos + 1) := hdesc.child (by omega) (by omega)
    refine ih sp out fp h hdc (by rw [List.length_set]; omega) ?_ ?_
    · intro j hj0 hjl hjd hjsp hjc
      rw [List.length_set] at hjl
      by_cases hjpos : j = pos
      · subst hjpos
        have hsplt : sp < j := lt_of_le_of_ne hdesc.le (fun hc2 => hjsp hc2.symm)
        rw [costAt_set_self cv (by omega),
          costAt_set_ne cv (by omega)]
        have hx := hU2 hsplt (2 * j + 1) (by omega) hc (by omega)
        rw [hcvval] at hx
        exact hx
      · by_cases hjpar : (j - 1) / 2 = pos
        · have hjcases : j = 2 * pos + 1 ∨ j = 2 * pos + 2 := by omega
          rw [costAt_set_ne cv (fun hc2 => hjpos hc2.symm), hjpar,
            costAt_set_self cv (by omega)]
          rcases hjcases with rfl | rfl
          · rw [hcvval]
          · rw [hrvval]
            omega
        · rw [costAt_set_ne cv (fun hc2 => hjpos hc2.symm),
            costAt_set_ne cv (fun hc2 => hjpar hc2.symm)]
          exact hU1 j hj0 hjl hjd hjsp hjpar
    · intro hsp2 j hj0 hjl hjpar
      rw [List.length_set] at hjl
      have hje : (2 * pos + 1 - 1) / 2 = pos := by omega
      have hjgt : 2 * pos + 1 < j := by omega
      rw [hje, costAt_set_self cv (by omega),
        costAt_set_ne cv (by omega)]
      have hjd : HeapDesc sp j := hdc.child hj0 hjpar
      have hx := hU1 j hj0 hjl hjd (by omega) (by omega)
      rw [hjpar, hcvval] at hx
      exact hx
  | case5 heap pos hc cv h1 hr rv h2 hcmp ih =>
    intro sp out fp h hdesc hlen hU1 hU2
    rw [siftupAux, dif_pos hc] at h
    simp only [h1, dif_pos hr, h2, hcmp] at h
    have hrvcv := entryLt_false hcmp
    have hcvval : costAt heap (2 * pos + 1) = cv.1 := costAt_of_getElem? h1
    have hrvval : costAt heap (2 * pos + 2) = rv.1 := costAt_of_getElem? h2
    have hdc : HeapDesc sp (2 * pos + 2) := hdesc.child (by omega) (by omega)
    refine ih sp out fp h hdc (by rw [List.length_set]; omega) ?_ ?_
    · intro j hj0 hjl hjd hjsp hjc
      rw [List.length_set] at hjl
      by_cases hjpos : j = pos
      · subst hjpos
        have hsplt : sp < j := lt_of_le_of_ne hdesc.le (fun hc2 => hjsp hc2.symm)
        rw [costAt_set_self rv (by omega),
          costAt_set_ne rv (by omega)]
        have hx := hU2 hsplt (2 * j + 2) (by omega) hr (by omega)
        rw [hrvval] at hx
        exact hx
      · by_cases hjpar : (j - 1) / 2 = pos
        · have hjcases : j = 2 * pos + 1 ∨ j = 2 * pos + 2 := by omega
          rw [costAt_set_ne rv (fun hc2 => hjpos hc2.symm), hjpar,
            costAt_set_self rv (by omega)]
          rcases hjcases with rfl | rfl
          · rw [hcvval]
            omega
          · rw [hrvval]
        · rw [costAt_set_ne rv (fun hc2 => hjpos hc2.symm),
            costAt_set_ne rv (fun hc2 => hjpar hc2.symm)]
          exact hU1 j hj0 hjl hjd hjsp hjpar
    · intro hsp2 j hj0 hjl hjpar
      rw [List.length_set] at hjl
      have hje : (2 * pos + 2 - 1) / 2 = pos := by omega
      have hjgt : 2 * pos + 2 < j := by omega
      rw [hje, costAt_set_self rv (by omega),
        costAt_set_ne rv (by omega)]
      have hjd : HeapDesc sp j := hdc.child hj0 hjpar
      have hx := hU1 j hj0 hjl hjd (by omega) (by omega)
      rw [hjpar, hrvval] at hx
      exact hx
  | case6 heap pos hc cv h1 hnr ih =>
    intro sp out fp h hdesc hlen hU1 hU2
    rw [siftupAux, dif_pos hc] at h
    simp only [h1, dif_neg hnr] at h
    have hcvval : costAt heap (2 * pos + 1) = cv.1 := costAt_of_getElem? h1
    have hdc : HeapDesc sp (2 * pos + 1) := hdesc.child (by omega) (by omega)
    refine ih sp out fp h hdc (by rw [List.length_set]; omega) ?_ ?_
    · intro j hj0 hjl hjd hjsp hjc
      rw [List.length_set] at hjl
      by_cases hjpos : j = pos
      · subst hjpos
        have hsplt : sp < j := lt_of_le_of_ne hdesc.le (fun hc2 => hjsp hc2.symm)
        rw [costAt_set_self cv (by omega),
          costAt_set_ne cv (by omega)]
        have hx := hU2 hsplt (2 * j + 1) (by omega) hc (by omega)
        rw [hcvval] at hx
        exact hx
      · by_cases hjpar : (j - 1) / 2 = pos
        · have hjcases : j = 2 * pos + 1 := by omega
          rw [costAt_set_ne cv (fun hc2 => hjpos hc2.symm), hjpar,
            costAt_set_self cv (by omega)]
          rw [hjcases, hcvval]
        · rw [costAt_set_ne cv (fun hc2 => hjpos hc2.symm),
            costAt_set_ne cv (fun hc2 => hjpar hc2.symm)]
          exact hU1 j hj0 hjl hjd hjsp hjpar
    · intro hsp2 j hj0 hjl hjpar
      rw [List.length_set] at hjl
      have hje : (2 * pos + 1 - 1) / 2 = pos := by omega
      have hjgt : 2 * pos + 1 < j := by omega
      rw [hje, costAt_set_self cv (by omega),
        costAt_set_ne cv (by omega)]
      have hjd : HeapDesc sp j := hdc.child hj0 hjpar
      have hx := hU1 j hj0 hjl hjd (by omega) (by omega)
      rw [hjpar, hcvval] at hx
      exact hx
  | case7 heap pos hnc =>
    intro sp out fp h hdesc hlen hU1 hU2
    rw [siftupAux, dif_neg hnc] at h
    simp only [Except.ok.injEq, Prod.mk.injEq] at h
    obtain ⟨h1, h2⟩ := h
    subst h1; subst h2
    exact ⟨hdesc, hU1, hU2⟩

/-- CPython `_siftup(heap, pos)` heap-orders the subtree rooted at `pos`,
provided it was ordered except possibly around `pos` itself. -/
theorem siftup_order (heap : List Entry) (sp : Nat) (out : List Entry)
    (h : siftup heap sp = .ok out)
    (hU1 : ∀ j, 0 < j → j < heap.length → HeapDesc sp j → j ≠ sp →
      (j - 1) / 2 ≠ sp → costAt heap ((j - 1) / 2) ≤ costAt heap j) :
    ∀ j, 0 < j → j < out.length → HeapDesc sp j → j ≠ sp →
      costAt out ((j - 1) / 2) ≤ costAt out j := by
  unfold siftup at h
  cases hp : heap[sp]? with
  | none => rw [hp] at h; exact absurd h (by simp)
  | some newitem =>
    rw [hp] at h
    cases hs : siftupAux heap sp with
    | error e => rw [hs] at h; exact absurd h (by simp)
    | ok pr =>
      obtain ⟨h2, fp⟩ := pr
      rw [hs] at h
      dsimp only at h
      obtain ⟨hlen2, hle2, hfp, hnc, hperm⟩ := siftupAux_spec heap sp h2 fp hs
      have hsplen : sp < heap.length := (List.getElem?_eq_some.mp hp).1
      obtain ⟨hdfp, hU1n, hU2n⟩ := siftupAux_order heap sp sp h2 fp hs
        (.refl sp) hsplen hU1 (fun hcon => absurd hcon (lt_irrefl sp))
      have hfpl : fp < (h2.set fp newitem).length := by
        rw [List.length_set, hlen2]; exact hfp hsplen
      refine siftdownAux_order (h2.set fp newitem) sp newitem fp out h hdfp
        hfpl ?_ ?_ ?_
      · intro j hj0 hjl hjd hjsp hjfp hjparfp
        rw [List.length_set] at hjl
        rw [costAt_set_ne newitem (fun hc => hjfp hc.symm),
          costAt_set_ne newitem (fun hc => hjparfp hc.symm)]
        exact hU1n j hj0 hjl hjd hjsp hjparfp
      · intro j hj0 hjl hjpar
        rw [List.length_set, hlen2] at hjl
        exact absurd (show 2 * fp + 1 < heap.length by omega) hnc
      · intro hspfp j hj0 hjl hjpar
        rw [List.length_set, hlen2] at hjl
        exact absurd (show 2 * fp + 1 < heap.length by omega) hnc

/-- CPython `_siftup(heap, pos)` only writes inside the subtree at `pos`. -/
theorem siftup_frame (heap : List Entry) (sp : Nat) (out : List Entry)
    (h : siftup heap sp = .ok out) :
    ∀ q, ¬ HeapDesc sp q → costAt out q = costAt heap q := by
  unfold siftup at h
  cases hp : heap[sp]? with
  | none => rw [hp] at h; exact absurd h (by simp)
  | some newitem =>
    rw [hp] at h
    cases hs : siftupAux heap sp with
    | error e => rw [hs] at h; exact absurd h (by simp)
    | ok pr =>
      obtain ⟨h2, fp⟩ := pr
      rw [hs] at h
      dsimp only at h
      intro q hq
      have hdfp : HeapDesc sp fp := siftupAux_desc heap sp h2 fp hs
      have hqfp : q ≠ fp := fun hc => hq (hc ▸ hdfp)
      rw [siftdownAux_frame (h2.set fp newitem) sp newitem fp out h hdfp q hq,
        costAt_set_ne newitem (fun hc => hqfp hc.symm),
        siftupAux_frame heap sp sp h2 fp hs (.refl sp) q hq]

/-- `heappush` preserves the heap ordering invariant. -/
theorem heappush_order (heap : List Entry) (item : Entry) (out : List Entry)
    (h : heappush heap item = .ok out) (hInv : heapInv heap) : heapInv out := by
  unfold heappush at h
  have hlen : heap.length < (heap ++ [item]).length := by simp
  have hmain := siftdownAux_order (heap ++ [item]) 0 item heap.length out h
    (HeapDesc.root heap.length) hlen ?_ ?_ ?_
  · intro j hj0 hjl
    exact hmain j hj0 hjl (HeapDesc.root j) (by omega)
  · intro j hj0 hjl hjd hjsp hjpos hjpar
    simp only [List.length_append, List.length_cons, List.length_nil] at hjl
    have hjlt : j < heap.length := by omega
    have hparlt : (j - 1) / 2 < heap.length := by
      have := Nat.div_le_self (j - 1) 2; omega
    rw [costAt_append_lt hjlt, costAt_append_lt hparlt]
    exact hInv j hj0 hjlt
  · intro j hj0 hjl hjpar
    simp only [List.length_append, List.length_cons, List.length_nil] at hjl
    omega
  · intro hsp j hj0 hjl hjpar
    simp only [List.length_append, List.length_cons, List.length_nil] at hjl
    omega

/-- `heappop` preserves the heap ordering invariant of the remaining heap. -/
theorem heappop_order (heap : List Entry) (x : Entry) (out : List Entry)
    (h : heappop heap = .ok (x, out)) (hInv : heapInv heap) : heapInv out := by
  unfold heappop at h
  cases hl : heap.getLast? with
  | none => rw [hl] at h; exact absurd h (by simp)
  | some lastelt =>
    rw [hl] at h
    dsimp only at h
    cases hr : heap.dropLast[0]? with
    | none =>
      rw [hr] at h
      simp only [Except.ok.injEq, Prod.mk.injEq] at h
      rw [← h.2]
      intro j hj0 hjl
      simp at hjl
    | some returnitem =>
      rw [hr] at h
      cases hs : siftup (heap.dropLast.set 0 lastelt) 0 with
      | error e => rw [hs] at h; exact absurd h (by simp)
      | ok h3 =>
        rw [hs] at h
        simp only [Except.ok.injEq, Prod.mk.injEq] at h
        rw [← h.2]
        have horder := siftup_order (heap.dropLast.set 0 lastelt) 0 h3 hs ?_
        · intro j hj0 hjl
          exact horder j hj0 hjl (HeapDesc.root j) (by omega)
        · intro j hj0 hjl hjd hjsp hjpar
          rw [List.length_set, List.length_dropLast] at hjl
          have hparpos : (j - 1) / 2 ≠ 0 := hjpar
          rw [costAt_set_ne lastelt (Ne.symm hjsp),
            costAt_set_ne lastelt (Ne.symm hparpos),
            costAt_dropLast (by omega),
            costAt_dropLast (by
              have := Nat.div_le_self (j - 1) 2; omega)]
          exact hInv j hj0 (by omega)

/-- One `heapify` pass at slot `i` extends the zone of ordered pairs from
parents above `i` to parents at or above `i`. -/
theorem siftup_establishes (heap : List Entry) (i : Nat) (out : List Entry)
    (h : siftup heap i = .ok out)
    (hQ : ∀ j, 0 < j → j < heap.length → i + 1 ≤ (j - 1) / 2 →
      costAt heap ((j - 1) / 2) ≤ costAt heap j) :
    ∀ j, 0 < j → j < out.length → i ≤ (j - 1) / 2 →
      costAt out ((j - 1) / 2) ≤ costAt out j := by
  have hlen : out.length = heap.length := (siftup_perm heap i out h).length_eq
  have hU1 : ∀ j, 0 < j → j < heap.length → HeapDesc i j → j ≠ i →
      (j - 1) / 2 ≠ i → costAt heap ((j - 1) / 2) ≤ costAt heap j := by
    intro j hj0 hjl hjd hjne hjpar
    refine hQ j hj0 hjl ?_
    have hd2 : HeapDesc i ((j - 1) / 2) :=
      hjd.parent_of_lt (lt_of_le_of_ne hjd.le (fun hc => hjne hc.symm))
    have := hd2.le
    omega
  intro j hj0 hjl hjpar
  rw [hlen] at hjl
  by_cases hjd : HeapDesc i j
  · have hjne : j ≠ i := by
      intro hc
      subst hc
      omega
    exact siftup_order heap i out h hU1 j hj0 (by omega) hjd hjne
  · have hjparnd : ¬ HeapDesc i ((j - 1) / 2) := by
      intro hc
      exact hjd (hc.child hj0 rfl)
    rw [siftup_frame heap i out h j hjd,
      siftup_frame heap i out h ((j - 1) / 2) hjparnd]
    refine hQ j hj0 hjl ?_
    rcases Nat.lt_or_ge i ((j - 1) / 2 + 1) with hlt | hge
    · -- i ≤ (j-1)/2; rule out equality using non-descendance
      rcases Nat.eq_or_lt_of_le hjpar with heq | hlt2
      · exact absurd (HeapDesc.child (.refl i) hj0 heq.symm) hjd
      · omega
    · omega

/-- The `heapify` loop establishes the heap invariant from the bottom up. -/
theorem heapifyAux_order :
    ∀ (heap : List Entry) (n : Nat) (out : List Entry),
      heapifyAux heap n = .ok out →
      (∀ j, 0 < j → j < heap.length → n ≤ (j - 1) / 2 →
        costAt heap ((j - 1) / 2) ≤ costAt heap j) →
      heapInv out := by
  intro heap n
  induction heap, n using heapifyAux.induct with
  | case1 heap =>
    intro out h hQ
    rw [heapifyAux] at h
    simp only [Except.ok.injEq] at h
    subst h
    intro j hj0 hjl
    exact hQ j hj0 hjl (Nat.zero_le _)
  | case2 heap i e hsift =>
    intro out h hQ
    rw [heapifyAux, hsift] at h
    exact absurd h (by simp)
  | case3 heap i h3 hsift ih =>
    intro out h hQ
    rw [heapifyAux, hsift] at h
    exact ih out h (siftup_establishes heap i h3 hsift hQ)

/-- `heapify` establishes the heap ordering invariant on any list. -/
theorem heapify_order (heap out : List Entry) (h : heapify heap = .ok out) :
    heapInv out := by
  refine heapifyAux_order heap (heap.length / 2) out h ?_
  intro j hj0 hjl hjpar
  omega

/-- `push`/`replace` preserve the heap ordering invariant at every
call-depth budget. -/
theorem pushReplaceFuel_order :
    ∀ (fuel : Nat) (b : Bool) (pq : PriorityQ) (x : SearchNode) (c : Int)
      (out : PriorityQ), heapInv pq.l →
      pushReplaceFuel fuel b pq x c = .ok out → heapInv out.l := by
  intro fuel
  induction fuel with
  | zero =>
    intro b pq x c out hInv h
    rw [pushReplaceFuel] at h
    exact absurd h (by simp)
  | succ fuel ih =>
    intro b pq x c out hInv h
    cases b with
    | true =>
      rw [pushReplaceFuel] at h
      split at h
      · exact ih false pq x c out hInv h
      · cases hpush : heappush pq.l (c, x) with
        | error e => rw [hpush] at h; exact absurd h (by simp)
        | ok l2 =>
          rw [hpush] at h
          simp only [Except.ok.injEq] at h
          rw [← h]
          exact heappush_order pq.l (c, x) l2 hpush hInv
    | false =>
      rw [pushReplaceFuel] at h
      cases hrem : removeFirstByState pq.l x.state with
      | some l2 =>
        rw [hrem] at h
        dsimp only at h
        cases hsr : setRemove pq.s x.state with
        | error e => rw [hsr] at h; exact absurd h (by simp)
        | ok s2 =>
          rw [hsr] at h
          dsimp only at h
          cases hhf : heapify l2 with
          | error e => rw [hhf] at h; exact absurd h (by simp)
          | ok l3 =>
            rw [hhf] at h
            dsimp only at h
            exact ih true ⟨l3, s2⟩ x c out (heapify_order l2 l3 hhf) h
      | none =>
        rw [hrem] at h
        dsimp only at h
        cases hhf : heapify pq.l with
        | error e => rw [hhf] at h; exact absurd h (by simp)
        | ok l3 =>
          rw [hhf] at h
          dsimp only at h
          exact ih true ⟨l3, pq.s⟩ x c out (heapify_order pq.l l3 hhf) h

/-- `pop` preserves the heap ordering invariant. -/
theorem pop_order (pq : PriorityQ) (x : SearchNode) (out : PriorityQ)
    (hInv : heapInv pq.l) (h : pq.pop = .ok (x, out)) : heapInv out.l := by
  unfold PriorityQ.pop at h
  cases hpop : heappop pq.l with
  | error e => rw [hpop] at h; exact absurd h (by simp)
  | ok pr =>
    obtain ⟨y, l2⟩ := pr
    rw [hpop] at h
    dsimp only at h
    cases hsr : setRemove pq.s y.2.state with
    | error e => rw [hsr] at h; exact absurd h (by simp)
    | ok s2 =>
      rw [hsr] at h
      simp only [Except.ok.injEq, Prod.mk.injEq] at h
      rw [← h.2]
      exact heappop_order pq.l y l2 hpop hInv

/-- Every successful method call preserves the heap ordering invariant. -/
theorem runOp_order (pq : PriorityQ) (op : PQOp) (out : PriorityQ)
    (hInv : heapInv pq.l) (h : runOp pq op = .ok out) : heapInv out.l := by
  cases op with
  | push x c =>
    exact pushReplaceFuel_order RECURSION_LIMIT true pq x c out hInv h
  | replace x c =>
    exact pushReplaceFuel_order RECURSION_LIMIT false pq x c out hInv h
  | pop =>
    unfold runOp at h
    cases hpop : pq.pop with
    | error e => rw [hpop] at h; exact absurd h (by simp)
    | ok pr =>
      obtain ⟨x, pq2⟩ := pr
      rw [hpop] at h
      simp only [Except.ok.injEq] at h
      rw [← h]
      exact pop_order pq x pq2 hInv hpop

/-- Successful method-call sequences preserve the heap ordering invariant. -/
theorem runOps_order :
    ∀ (ops : List PQOp) (pq out : PriorityQ), heapInv pq.l →
      runOps pq ops = .ok out → heapInv out.l := by
  intro ops
  induction ops with
  | nil =>
    intro pq out hInv h
    rw [runOps] at h
    simp only [Except.ok.injEq] at h
    rw [← h]; exact hInv
  | cons op ops ih =>
    intro pq out hInv h
    rw [runOps] at h
    cases hop : runOp pq op with
    | error e => rw [hop] at h; exact absurd h (by simp)
    | ok pq2 =>
      rw [hop] at h
      exact ih pq2 out (runOp_order pq op pq2 hInv hop) h

/-- In a heap-ordered list the root cost is minimal. -/
theorem heapInv_root_min (l : List Entry) (hInv : heapInv l) :
    ∀ j, j < l.length → costAt l 0 ≤ costAt l j := by
  intro j
  induction j using Nat.strong_induction_on with
  | _ j ih =>
    intro hjl
    cases Nat.eq_zero_or_pos j with
    | inl h => rw [h]
    | inr h =>
      have hpar : (j - 1) / 2 < j := by omega
      exact le_trans (ih _ hpar (by omega)) (hInv j h hjl)

/-- C4 counterexample: pushing a second node whose cost *equals* one already
in the heap makes the sift comparison fall through to
`SearchNode < SearchNode`, raising `TypeError` — equal-priority entries are
not tie-broken by insertion order, they crash the frontier. -/
theorem c4_equal_cost_typeerror :
    runOps PriorityQ.empty [.push probeA 5, .push probeOther 5] =
      .error .typeError := by
  simp [runOps, runOp, PriorityQ.push, pushReplaceFuel, RECURSION_LIMIT,
    heappush, siftdownAux, entryLt, PriorityQ.empty, probeA, probeOther,
    SearchNode.state, List.set]

/-- C4 (amended): on any frontier reached from the empty queue by a
successful sequence of method calls, `pop` removes and returns the node of a
minimum-cost entry — the heap root: there is a cost `c` with `(c, n)` the
root entry, every stored entry costing at least `c`, and the remaining heap
being the old one minus that entry (as a multiset).  Determinism holds
because the embedding is a function; the insertion-order tie-break claimed
for equal costs does not exist (see the counterexample). -/
theorem c4_pop_returns_min (ops : List PQOp) (pq : PriorityQ) (n : SearchNode)
    (pq2 : PriorityQ) (hrun : runOps PriorityQ.empty ops = .ok pq)
    (hpop : pq.pop = .ok (n, pq2)) :
    ∃ c : Int, pq.l[0]? = some (c, n) ∧ (∀ e ∈ pq.l, c ≤ e.1) ∧
      pq.l.Perm ((c, n) :: pq2.l) := by
  have hInv : heapInv pq.l := runOps_order ops PriorityQ.empty pq
    (by intro j hj0 hjl; simp [PriorityQ.empty] at hjl) hrun
  unfold PriorityQ.pop at hpop
  cases hpp : heappop pq.l with
  | error e => rw [hpp] at hpop; exact absurd hpop (by simp)
  | ok pr =>
    obtain ⟨y, l2⟩ := pr
    rw [hpp] at hpop
    dsimp only at hpop
    cases hsr : setRemove pq.s y.2.state with
    | error e => rw [hsr] at hpop; exact absurd hpop (by simp)
    | ok s2 =>
      rw [hsr] at hpop
      simp only [Except.ok.injEq, Prod.mk.injEq] at hpop
      obtain ⟨hn, hpq2⟩ := hpop
      obtain ⟨hroot, hperm⟩ := heappop_spec pq.l y l2 hpp
      have hy : (y.1, n) = y := by rw [← hn]
      refine ⟨y.1, ?_, ?_, ?_⟩
      · rw [hroot, hy]
      · intro e he
        obtain ⟨j, hj, hje⟩ := List.getElem_of_mem he
        have hcj : costAt pq.l j = e.1 :=
          costAt_of_getElem? (by rw [List.getElem?_eq_getElem hj, hje])
        have hc0 : costAt pq.l 0 = y.1 := costAt_of_getElem? hroot
        have := heapInv_root_min pq.l hInv j hj
        rw [hcj, hc0] at this
        exact this
      · rw [hy, ← hpq2]
        exact hperm.symm

/-- Witness for C4: pushes with costs 5 then 3 for two distinct states, then
a pop, which returns the cost-3 entry. -/
theorem c4_pop_returns_min_witness :
    ∃ c : Int,
      ([((3 : Int), probeOther), ((5 : Int), probeA)] : List Entry)[0]? =
        some (c, probeOther) ∧
      (∀ e ∈ ([(3, probeOther), (5, probeA)] : List Entry), c ≤ e.1) ∧
      ([((3 : Int), probeOther), ((5 : Int), probeA)] : List Entry).Perm
        ((c, probeOther) :: [(5, probeA)]) :=
  c4_pop_returns_min [.push probeA 5, .push probeOther 3]
    ⟨[(3, probeOther), (5, probeA)], insert (0, 1) (insert (0, 0) ∅)⟩
    probeOther
    ⟨[(5, probeA)], (insert ((0 : Nat), (1 : Nat))
      (insert (0, 0) (∅ : Finset (Nat × Nat)))).erase (0, 1)⟩
    (by simp [runOps, runOp, PriorityQ.push, pushReplaceFuel, RECURSION_LIMIT,
      heappush, siftdownAux, entryLt, PriorityQ.empty, probeA, probeOther,
      SearchNode.state, List.set])
    (by simp [PriorityQ.pop, heappop, siftup, siftupAux, siftdownAux,
      setRemove, entryLt, probeA, probeOther, SearchNode.state, List.set,
      List.getLast?, List.dropLast])
